import Mathlib

/-!
Verification development for the PBC/PFP/PMP market-simulation engine
(`src/unnamed/part_000`, the full "Planificador Humano" variant, together
with the step functions of the simpler variant `src/unnamed/part_001`
where a claim cites them).

The JavaScript engine is shallowly embedded:
* JS numbers are modelled as exact rationals `ℚ`; `Math.exp` / `Math.log`
  are abstract parameters of the environment (`Env.jsExp`, `Env.jsLog`)
  since the claims under scrutiny never depend on their values;
* the seeded generator `mulberry32` is modelled bit-exactly over `ℕ`
  (all JS 32-bit coercions become `% 2 ^ 32`);
* the engine's single mutable rng closure becomes a stream `g : ℕ → ℚ`
  plus a position counter, threaded by the monad `RandM`; every random
  computation of the engine is written in the sub-monad `LRand` of
  computations that only read the stream at positions at or beyond the
  current counter and move the counter forward.  This carries the
  determinism property: the tick is a function of state, overrides and
  stream position.
-/

/-- JS truthy-default `x || d` on numbers: `0` is falsy and replaced by `d`
(the engine never produces `NaN` in the modelled positions). -/
def jsOr (x d : ℚ) : ℚ := if x = 0 then d else x

/-- JS `Math.round`: round half toward positive infinity. -/
def jsRound (q : ℚ) : ℤ := ⌊q + 1 / 2⌋

/-- JS `Number(x.toFixed(d))`: round to `d` decimal digits.  (Ties round
away from zero in JS on positive values; all uses below are tie-free.) -/
def toFixedQ (d : ℕ) (q : ℚ) : ℚ := (jsRound (q * 10 ^ d) : ℚ) / 10 ^ d

/-- Truncate to a 32-bit word, as the JS bitwise coercions do. -/
def u32 (n : ℕ) : ℕ := n % 2 ^ 32

/-- One output of `mulberry32` (src/unnamed/part_000 lines 36-43) computed
from the accumulated internal value `a = seed + (k+1) * 0x6d2b79f5`:
`t = imul(t ^ (t >>> 15), t | 1); t ^= t + imul(t ^ (t >>> 7), t | 61);
return (t ^ (t >>> 14)) >>> 0`. -/
def mulberryMix (a : ℕ) : ℕ :=
  let t0 := u32 a
  let t1 := u32 ((t0 ^^^ (t0 >>> 15)) * (t0 ||| 1))
  let t2 := t1 ^^^ u32 (t1 + u32 ((t1 ^^^ (t1 >>> 7)) * (t1 ||| 61)))
  t2 ^^^ (t2 >>> 14)

/-- The `k`-th uniform draw of `mulberry32(seed)`, as an exact rational in
`[0, 1)`: the 32-bit output divided by `4294967296`. -/
def mulberryQ (seed k : ℕ) : ℚ := (mulberryMix (seed + (k + 1) * 0x6d2b79f5) : ℚ) / 2 ^ 32

/-- The full uniform stream produced by `mulberry32(seed)`. -/
def mulberryStream (seed : ℕ) : ℕ → ℚ := fun k => mulberryQ seed k

/-- Raw random computations: functions of the uniform stream and the
current stream position, returning a value and the new position. -/
def RandM (α : Type) : Type := (ℕ → ℚ) → ℕ → α × ℕ

/-- Monadic return for `RandM`. -/
def RandM.pure {α : Type} (a : α) : RandM α := fun _ n => (a, n)

/-- Monadic bind for `RandM`: run `m`, then run `f` on its value from the
position where `m` stopped. -/
def RandM.bind {α β : Type} (m : RandM α) (f : α → RandM β) : RandM β :=
  fun g n => let r := m g n; f r.1 g r.2

/-- Two streams agree at every position at or beyond `n`. -/
def Agree (n : ℕ) (g₁ g₂ : ℕ → ℚ) : Prop := ∀ k, n ≤ k → g₁ k = g₂ k

/-- Well-behaved random computations: the result depends only on the
stream's values at or beyond the start position, and the position never
moves backwards.  Every piece of the engine lives in this class. -/
structure GoodR {α : Type} (m : RandM α) : Prop where
  loc : ∀ g₁ g₂ n, Agree n g₁ g₂ → m g₁ n = m g₂ n
  mono : ∀ g n, n ≤ (m g n).2

/-- Random computations bundled with their `GoodR` certificate. -/
def LRand (α : Type) : Type := { m : RandM α // GoodR m }

instance : Monad LRand where
  pure a := ⟨RandM.pure a, ⟨fun _ _ _ _ => rfl, fun _ n => Nat.le_refl n⟩⟩
  bind m f := ⟨RandM.bind m.1 (fun a => (f a).1), by
    constructor
    · intro g₁ g₂ n hag
      have h1 : m.1 g₁ n = m.1 g₂ n := m.2.loc g₁ g₂ n hag
      show RandM.bind m.1 (fun a => (f a).1) g₁ n = RandM.bind m.1 (fun a => (f a).1) g₂ n
      unfold RandM.bind
      rw [h1]
      exact ((f (m.1 g₂ n).1).2).loc g₁ g₂ (m.1 g₂ n).2
        (fun k hk => hag k (Nat.le_trans (h1 ▸ m.2.mono g₁ n) hk))
    · intro g n
      exact Nat.le_trans (m.2.mono g n) ((f (m.1 g n).1).2.mono g (m.1 g n).2)⟩

/-- Run a bundled random computation on a stream from a position. -/
def runR {α : Type} (m : LRand α) (g : ℕ → ℚ) (n : ℕ) : α × ℕ := m.1 g n

/-- One call of the generator `rng()`: read the stream at the current
position and advance it. -/
def nextR : LRand ℚ :=
  ⟨fun g n => (g n, n + 1), by
    constructor
    · intro g₁ g₂ n hag
      show (g₁ n, n + 1) = (g₂ n, n + 1)
      rw [hag n (Nat.le_refl n)]
    · intro g n
      exact Nat.le_succ n⟩

/-- `randRange(rng, a, b) = a + (b - a) * rng()` (part_000 lines 44-46). -/
def randRange (a b : ℚ) : LRand ℚ := do
  let u ← nextR
  pure (a + (b - a) * u)

/-- `Math.floor(rng() * len)`, the random index idiom of the engine. -/
def pickIndex (len : ℕ) : LRand ℤ := do
  let u ← nextR
  pure ⌊u * (len : ℚ)⌋

/-- A stream whose draws all lie in `[0, 1)`, the contract of
`mulberry32`. -/
def Range01 (g : ℕ → ℚ) : Prop := ∀ k, 0 ≤ g k ∧ g k < 1

/-! ## Data model (src/unnamed/part_000) -/

/-- Demand-curve family of a hidden consumer. -/
inductive CType where
  | linear
  | log
  | exp
  | poly
deriving DecidableEq, Repr

/-- Firm tier: Final (PBC), Intermediate (PFP), Raw (PMP). -/
inductive Tier where
  | PBC
  | PFP
  | PMP
deriving DecidableEq, Repr

/-- Order direction between adjacent tiers (the JS `level` strings
`"PBC->PFP"` / `"PFP->PMP"`). -/
inductive OrderLevel where
  | pbcToPfp
  | pfpToPmp
deriving DecidableEq, Repr

/-- Hidden consumer (part_000 lines 444-465). -/
structure Consumer where
  type : CType
  a : ℚ
  b : ℚ
  Ti : ℤ
  nextUpdateAt : ℤ
  lastUpdate : ℤ
  nextChange : ℤ
deriving DecidableEq, Repr

/-- Firm of any tier (part_000 lines 468-506).  The string ids `PBC_i` /
`PFP_i` / `PMP_i` are modelled by the number `fid`, unique within each
tier's list.  `planned` is only meaningful for PBC firms, as in the
source. -/
structure Firm where
  fid : ℕ
  A : ℚ
  capacity : ℚ
  marginalCost : ℚ
  inventory : ℚ
  planned : ℚ
  history : List (ℤ × ℚ)
deriving DecidableEq, Repr

/-- In-flight replenishment order (part_000 lines 641, 681).  JS object
identity (needed for the `orig` back-reference, mutated through the
alias) is modelled by the serial number `oid`; `orig` stores the parent's
`oid`. -/
structure Order where
  oid : ℕ
  level : OrderLevel
  src : ℕ
  dst : ℕ
  amount : ℚ
  due : ℤ
  filled : Bool
  orig : Option ℕ
deriving DecidableEq, Repr

/-- Scheduled/adopted innovation (part_000 lines 749-757). -/
structure Innov where
  firm : ℕ
  level : Tier
  costMul : ℚ
  tfpMul : ℚ
  scheduleAt : ℤ
  adoptAt : ℤ
  adopted : Bool
deriving DecidableEq, Repr

/-- Kinds of entries pushed onto `s.logs` inside `simTick`. -/
inductive LogKind where
  | orderFilled
  | innovationAdopted
deriving DecidableEq, Repr

/-- One recorded metrics point (part_000 lines 781-787): all four series
values pass through `Number(x.toFixed(k))`. -/
structure Point where
  t : ℤ
  price : ℚ
  qDemand : ℚ
  qServed : ℚ
  efficiency : ℚ
deriving DecidableEq, Repr

/-- Engine state (the fields of `simRef.current` that the tick reads or
writes; the rng closure is replaced by the `RandM` position). -/
structure SimState where
  t : ℤ
  price : ℚ
  consumers : List Consumer
  firmsPBC : List Firm
  firmsPFP : List Firm
  firmsPMP : List Firm
  orders : List Order
  logs : List (ℤ × LogKind)
  innovations : List Innov
  nextOid : ℕ
deriving DecidableEq, Repr

/-- External inputs of a tick: price mode and manual price, the
perceived-demand override, the experiment phase's feedback strength, and
the ambient real functions `Math.exp` / `Math.log`. -/
structure Env where
  priceManual : Bool
  manualPrice : ℚ
  userFn : Option (ℚ → ℚ)
  feedbackStrength : ℚ
  jsExp : ℚ → ℚ
  jsLog : ℚ → ℚ

/-- `DEFAULT.pMin` (part_000 line 148). -/
def pMin : ℚ := 0.01

/-- `DEFAULT.pPriceAdjustGain` (part_000 line 149). -/
def pPriceAdjustGain : ℚ := 0.08

/-! ## Engine steps (part_000 `simTick`, lines 562-796) -/

/-- Preference-regime switch (part_000 lines 576-592): when
`t ≥ nextChange`, reassign the family and coefficients and reschedule
`30 + floor(randRange(0,70))` ticks ahead. -/
def consumerChangeStep (t : ℤ) (c : Consumer) : LRand Consumer := do
  if t ≥ c.nextChange then
    let r ← nextR
    let c ←
      if r < 0.33 then do
        let a ← randRange 100 150
        let b ← randRange 0.5 1.0
        pure { c with type := CType.linear, a := a, b := b }
      else if r < 0.66 then do
        let a ← randRange 80 120
        let b ← randRange 5 10
        pure { c with type := CType.log, a := a, b := b }
      else do
        let a ← randRange 90 120
        let b ← randRange 0.1 0.3
        pure { c with type := CType.exp, a := a, b := b }
    let nc ← randRange 0 70
    pure { c with nextChange := t + 30 + ⌊nc⌋ }
  else
    pure c

/-- Scheduled coefficient update (part_000 lines 594-609): full resample
with probability 0.15 (including the `b`-sign roll), else small drift;
rare large shock to `a`; reschedule `round(randRange(30,90))` ahead. -/
def consumerUpdateStep (t : ℤ) (c : Consumer) : LRand Consumer := do
  if t ≥ c.nextUpdateAt then
    let roll ← nextR
    let c ←
      if roll < 0.15 then do
        let a ← randRange 5 200
        let signRoll ← nextR
        let b ←
          if signRoll < 0.75 then randRange 0.01 10
          else if signRoll < 0.95 then pure 0
          else do
            let v ← randRange 0.1 5
            pure (-v)
        pure { c with a := a, b := b }
      else do
        let u1 ← nextR
        let u2 ← nextR
        pure { c with a := c.a * (1 + (u1 - 0.5) * 0.08), b := c.b * (1 + (u2 - 0.5) * 0.04) }
    let shockRoll ← nextR
    let c ←
      if shockRoll < 0.01 then do
        let m ← randRange 1.5 3.0
        pure { c with a := c.a * m }
      else pure c
    let d ← randRange 30 90
    pure { c with nextUpdateAt := t + jsRound d, lastUpdate := t }
  else
    pure c

/-- Unconditional per-tick jitter of both coefficients (part_000 lines
610-612). -/
def consumerJitter (c : Consumer) : LRand Consumer := do
  let u1 ← nextR
  let u2 ← nextR
  pure { c with a := c.a + (u1 - 0.5) * 0.01 * c.a, b := c.b + (u2 - 0.5) * 0.01 * c.b }

/-- `computeConsumerDemand` (part_000 lines 531-544): evaluate the hidden
curve and apply multiplicative ±5% noise, flooring the result at 0. -/
def computeConsumerDemand (E : Env) (c : Consumer) (p : ℚ) : LRand ℚ := do
  let q : ℚ :=
    match c.type with
    | CType.linear => c.a - c.b * p
    | CType.log => c.a - c.b * E.jsLog (1 + max 0 p)
    | CType.exp => c.a * E.jsExp (-(c.b * p))
    | CType.poly => max 0 (c.a - c.b * p - max 0.001 (c.b * 0.01) * p * p)
  let u ← nextR
  pure (max 0 (q * (1 + (u - 0.5) * 2 * 0.05)))

/-- `consumerReact` (part_000 lines 545-559): stochastic demand reaction
to the latest price move; no draw at all when the price is unchanged. -/
def consumerReact (prevPrice newPrice : ℚ) : LRand ℚ := do
  if newPrice = prevPrice then pure 1
  else do
    let roll ← nextR
    if newPrice > prevPrice then
      if roll < 0.8 then randRange 0.7 0.95
      else if roll < 0.8 + 0.18 then randRange 0.98 1.02
      else randRange 1.01 1.2
    else
      if roll < 0.7 then randRange 1.01 1.2
      else if roll < 0.95 then randRange 0.98 1.02
      else randRange 0.7 0.95

/-- Whole consumer body of the tick loop (part_000 lines 574-621):
update, jitter, experimental feedback, then demand times reaction. -/
def consumerTick (E : Env) (t : ℤ) (prevPrice price : ℚ) (c : Consumer) :
    LRand (Consumer × ℚ) := do
  let c ← consumerChangeStep t c
  let c ← consumerUpdateStep t c
  let c ← consumerJitter c
  let c :=
    if E.feedbackStrength ≠ 0 then
      { c with a := c.a + E.feedbackStrength * (prevPrice - price) }
    else c
  let baseQ ← computeConsumerDemand E c price
  let react ← consumerReact prevPrice price
  pure (c, baseQ * react)

/-- The consumers loop: fold `consumerTick` and accumulate `Qagg`. -/
def consumersStep (E : Env) (t : ℤ) (prevPrice price : ℚ) (cs : List Consumer) :
    LRand (List Consumer × ℚ) :=
  cs.foldlM
    (fun acc c => do
      let r ← consumerTick E t prevPrice price c
      pure (acc.1 ++ [r.1], acc.2 + r.2))
    ([], 0)

/-- PBC planning loop (part_000 lines 623-644): share perceived demand by
`A * (capacity || 1)`, set `planned`, and order the deficit from a random
PFP firm with delay `round(randRange(5,15))`.  The automatic perceived
demand draws one uniform per call (i.e. per firm); a user override draws
none. -/
def pbcPlanningStep (E : Env) (t : ℤ) (price Qagg : ℚ)
    (pbc pfp : List Firm) (nextOid : ℕ) :
    LRand (List Firm × List Order × ℕ) :=
  let sumA := max 0.000001 ((pbc.map (fun f => f.A * jsOr f.capacity 1)).sum)
  pbc.foldlM
    (fun acc f => do
      let share := f.A * jsOr f.capacity 1 / sumA
      let perceived ←
        match E.userFn with
        | some fn => pure (fn price)
        | none => do
          let u ← nextR
          pure (Qagg * (0.85 + 0.3 * u))
      let plan := max 0 perceived * share
      let f' := { f with planned := plan }
      if plan > f.inventory then do
        let idx ← pickIndex pfp.length
        match (if 0 ≤ idx then pfp.get? idx.toNat else none) with
        | some pf => do
          let d ← randRange 5 15
          let o : Order :=
            ⟨acc.2.2, OrderLevel.pbcToPfp, f.fid, pf.fid, plan - f.inventory,
              t + jsRound d, false, none⟩
          pure (acc.1 ++ [f'], acc.2.1 ++ [o], acc.2.2 + 1)
        | none => pure (acc.1 ++ [f'], acc.2.1, acc.2.2)
      else
        pure (acc.1 ++ [f'], acc.2.1, acc.2.2))
    ([], [], nextOid)

/-- Autonomous base production of PFP and PMP firms (part_000 lines
646-658): `produced = (capacity || 10) * (0.4 + rng() * 0.6)`. -/
def produceStep (t : ℤ) (firms : List Firm) : LRand (List Firm) :=
  firms.foldlM
    (fun acc f => do
      let u ← nextR
      let produced := jsOr f.capacity 10 * (0.4 + u * 0.6)
      pure (acc ++ [{ f with inventory := f.inventory + produced,
                             history := f.history ++ [(t, produced)] }]))
    []

/-- `s.firms[tier].find(x => x.id === i)`. -/
def findFirm (fs : List Firm) (i : ℕ) : Option Firm := fs.find? (fun f => f.fid == i)

/-- In-place mutation of the firm with id `i`. -/
def updateFirm (fs : List Firm) (i : ℕ) (u : Firm → Firm) : List Firm :=
  fs.map (fun f => if f.fid == i then u f else f)

/-- In-place mutation of the order with serial `i`. -/
def updateOrder (os : List Order) (i : ℕ) (u : Order → Order) : List Order :=
  os.map (fun o => if o.oid == i then u o else o)

/-- Look an order up by serial (for the `orig` back-reference). -/
def findOrder (os : List Order) (i : ℕ) : Option Order := os.find? (fun o => o.oid == i)

/-- The mutable pieces touched by the order-resolution loop. -/
structure OrdCtx where
  pbc : List Firm
  pfp : List Firm
  pmp : List Firm
  orders : List Order
  nextOid : ℕ
  logs : List (ℤ × LogKind)
deriving DecidableEq, Repr

/-- Body of the due-order loop (part_000 lines 661-709) for one snapshot
entry.  `PBC->PFP`: fill if the PFP inventory covers the amount, else
spawn a `PFP->PMP` child for the shortfall (delay `round(randRange(5,20))`)
with `orig` pointing at the parent.  `PFP->PMP`: fill if covered, then
cascade-fill the parent when the PFP inventory now covers it.  A missing
endpoint just marks the order filled. -/
def processOneOrder (t : ℤ) (ctx : OrdCtx) (ord : Order) : LRand OrdCtx := do
  match ord.level with
  | OrderLevel.pbcToPfp =>
    match findFirm ctx.pfp ord.dst, findFirm ctx.pbc ord.src with
    | some pfpF, some _ =>
      if pfpF.inventory ≥ ord.amount then
        pure { ctx with
          pfp := updateFirm ctx.pfp ord.dst
            (fun f => { f with inventory := f.inventory - ord.amount }),
          pbc := updateFirm ctx.pbc ord.src
            (fun f => { f with inventory := f.inventory + ord.amount }),
          orders := updateOrder ctx.orders ord.oid (fun o => { o with filled := true }),
          logs := ctx.logs ++ [(t, LogKind.orderFilled)] }
      else do
        let need := max 0 (ord.amount - pfpF.inventory)
        let idx ← pickIndex ctx.pmp.length
        match (if 0 ≤ idx then ctx.pmp.get? idx.toNat else none) with
        | some pmpF => do
          let d ← randRange 5 20
          let child : Order :=
            ⟨ctx.nextOid, OrderLevel.pfpToPmp, ord.dst, pmpF.fid, need,
              t + jsRound d, false, some ord.oid⟩
          pure { ctx with orders := ctx.orders ++ [child], nextOid := ctx.nextOid + 1 }
        | none => pure ctx
    | _, _ =>
      pure { ctx with
        orders := updateOrder ctx.orders ord.oid (fun o => { o with filled := true }) }
  | OrderLevel.pfpToPmp =>
    match findFirm ctx.pmp ord.dst, findFirm ctx.pfp ord.src with
    | some pmpF, some _ =>
      if pmpF.inventory ≥ ord.amount then
        let ctx1 := { ctx with
          pmp := updateFirm ctx.pmp ord.dst
            (fun f => { f with inventory := f.inventory - ord.amount }),
          pfp := updateFirm ctx.pfp ord.src
            (fun f => { f with inventory := f.inventory + ord.amount }),
          orders := updateOrder ctx.orders ord.oid (fun o => { o with filled := true }),
          logs := ctx.logs ++ [(t, LogKind.orderFilled)] }
        match ord.orig with
        | some oi =>
          match findOrder ctx1.orders oi, findFirm ctx1.pfp ord.src with
          | some origOrd, some pfpNow =>
            match findFirm ctx1.pbc origOrd.src with
            | some _ =>
              if pfpNow.inventory ≥ origOrd.amount then
                pure { ctx1 with
                  pfp := updateFirm ctx1.pfp ord.src
                    (fun f => { f with inventory := f.inventory - origOrd.amount }),
                  pbc := updateFirm ctx1.pbc origOrd.src
                    (fun f => { f with inventory := f.inventory + origOrd.amount }),
                  orders := updateOrder ctx1.orders oi
                    (fun o => { o with filled := true }) }
              else pure ctx1
            | none => pure ctx1
          | _, _ => pure ctx1
        | none => pure ctx1
      else
        pure ctx
    | _, _ =>
      pure { ctx with
        orders := updateOrder ctx.orders ord.oid (fun o => { o with filled := true }) }

/-- The due-order loop (part_000 line 661): iterate over a snapshot of
the orders that are unfilled and due at loop entry. -/
def processOrdersStep (t : ℤ) (ctx : OrdCtx) : LRand OrdCtx :=
  (ctx.orders.filter (fun o => !o.filled && decide (o.due ≤ t))).foldlM
    (processOneOrder t) ctx

/-- Serve body for one PBC firm (part_000 lines 713-719):
`possible = min(planned || 0, inventory || 0, capacity || 9999)`;
`produced = max(0, possible)`; the firm consumes `produced` from
inventory and records `(t, produced)`.  (`x || 0` is the identity on
rationals; `capacity || 9999` is not when `capacity = 0`.) -/
def serveFirm (t : ℤ) (f : Firm) : Firm × ℚ :=
  let possible := min f.planned (min f.inventory (jsOr f.capacity 9999))
  let produced := max 0 possible
  ({ f with inventory := f.inventory - produced,
            history := f.history ++ [(t, produced)] }, produced)

/-- The PBC serve loop, accumulating `Qserved` (part_000 lines 711-721). -/
def pbcServeStep (t : ℤ) (pbc : List Firm) : List Firm × ℚ :=
  pbc.foldl
    (fun acc f =>
      let r := serveFirm t f
      (acc.1 ++ [r.1], acc.2 + r.2))
    ([], 0)

/-- Automatic price adjustment (part_000 lines 722-727):
`delta = Qagg === 0 ? 0 : (Qagg - Qserved) / max(1, Qagg)`;
`price = max(pMin, price * (1 + gain * delta))`. -/
def priceAdjustStep (Qagg Qserved price : ℚ) : ℚ :=
  let delta := if Qagg = 0 then 0 else (Qagg - Qserved) / max 1 Qagg
  max pMin (price * (1 + pPriceAdjustGain * delta))

/-- `levels[Math.floor(rng() * levels.length)]` for
`levels = ["PBC","PFP","PMP"]`. -/
def tierOfIndex (n : ℤ) : Option Tier :=
  if n = 0 then some Tier.PBC
  else if n = 1 then some Tier.PFP
  else if n = 2 then some Tier.PMP
  else none

/-- Random innovation scheduling (part_000 lines 729-762): with
probability 0.03 pick a tier and a firm, and schedule an innovation with
`costMul ∈ [0.92, 0.99]`, `tfpMul ∈ [1.02, 1.25]` and adoption delay
`round(randRange(10, 60))`. -/
def innovationStep (t : ℤ) (pbc pfp pmp : List Firm) : LRand (Option Innov) := do
  let u ← nextR
  if u < 0.03 then do
    let li ← pickIndex 3
    match tierOfIndex li with
    | none => pure none
    | some lvl =>
      let firms :=
        match lvl with
        | Tier.PBC => pbc
        | Tier.PFP => pfp
        | Tier.PMP => pmp
      if firms.length > 0 then do
        let fi ← pickIndex firms.length
        match (if 0 ≤ fi then firms.get? fi.toNat else none) with
        | some f => do
          let costMul ← randRange 0.92 0.99
          let tfpMul ← randRange 1.02 1.25
          let adopt ← randRange 10 60
          pure (some ⟨f.fid, lvl, costMul, tfpMul, t, t + jsRound adopt, false⟩)
        | none => pure none
      else pure none
  else pure none

/-- Effect of adopting one innovation on its firm (part_000 lines
770-771): `marginalCost = max(0.01, marginalCost * costMul)`;
`A = (A || 1) * tfpMul`. -/
def adoptFirmUpdate (innov : Innov) (f : Firm) : Firm :=
  { f with marginalCost := max 0.01 (f.marginalCost * innov.costMul),
           A := jsOr f.A 1 * innov.tfpMul }

/-- The mutable pieces touched by the adoption loop. -/
structure AdoptCtx where
  pbc : List Firm
  pfp : List Firm
  pmp : List Firm
  innovations : List Innov
  logs : List (ℤ × LogKind)
deriving DecidableEq, Repr

/-- Adoption of the innovation at list position `idx` (part_000 lines
766-777): find the firm in the innovation's tier, apply the multipliers,
mark adopted, and log. -/
def adoptOne (t : ℤ) (ctx : AdoptCtx) (idx : ℕ) : AdoptCtx :=
  match ctx.innovations.get? idx with
  | none => ctx
  | some innov =>
    let firms :=
      match innov.level with
      | Tier.PBC => ctx.pbc
      | Tier.PFP => ctx.pfp
      | Tier.PMP => ctx.pmp
    match findFirm firms innov.firm with
    | none => ctx
    | some _ =>
      let firms' := updateFirm firms innov.firm (adoptFirmUpdate innov)
      { ctx with
        pbc := if innov.level = Tier.PBC then firms' else ctx.pbc,
        pfp := if innov.level = Tier.PFP then firms' else ctx.pfp,
        pmp := if innov.level = Tier.PMP then firms' else ctx.pmp,
        innovations := ctx.innovations.set idx { innov with adopted := true },
        logs := ctx.logs ++ [(t, LogKind.innovationAdopted)] }

/-- The adoption loop (part_000 lines 765-778): iterate over the
positions of the innovations that are unadopted and due. -/
def adoptStep (t : ℤ) (ctx : AdoptCtx) : AdoptCtx :=
  ((List.range ctx.innovations.length).filter
    (fun i =>
      match ctx.innovations.get? i with
      | some x => !x.adopted && decide (x.adoptAt ≤ t)
      | none => false)).foldl (adoptOne t) ctx

/-- The recorded series point (part_000 lines 781-787). -/
def mkPoint (t : ℤ) (price Qagg Qserved : ℚ) : Point :=
  ⟨t, toFixedQ 4 price, toFixedQ 3 Qagg, toFixedQ 3 Qserved,
    toFixedQ 3 (Qserved / max 1 Qagg)⟩

/-- Log trimming (part_000 line 795): above 5000 entries keep the most
recent 2000. -/
def trimLogs (ls : List (ℤ × LogKind)) : List (ℤ × LogKind) :=
  if ls.length > 5000 then ls.drop (ls.length - 2000) else ls

/-- Tail of the tick shared by the normal and the faulty-override entry
points: production, order resolution, serving, price adjustment,
innovation scheduling and adoption, metrics recording, log trimming. -/
def simTickRest (E : Env) (s : SimState) (t : ℤ) (price Qagg : ℚ)
    (consumers : List Consumer) (pbc : List Firm) (orders : List Order)
    (nextOid : ℕ) : LRand (SimState × Point) := do
  let pmp ← produceStep t s.firmsPMP
  let pfp ← produceStep t s.firmsPFP
  let ctx ← processOrdersStep t ⟨pbc, pfp, pmp, orders, nextOid, s.logs⟩
  let served := pbcServeStep t ctx.pbc
  let price2 := if E.priceManual then price else priceAdjustStep Qagg served.2 price
  let inn ← innovationStep t served.1 ctx.pfp ctx.pmp
  let innovations :=
    match inn with
    | some i => s.innovations ++ [i]
    | none => s.innovations
  let actx := adoptStep t ⟨served.1, ctx.pfp, ctx.pmp, innovations, ctx.logs⟩
  let pt := mkPoint t price2 Qagg served.2
  pure ({ s with
    t := t, price := price2, consumers := consumers,
    firmsPBC := actx.pbc, firmsPFP := actx.pfp, firmsPMP := actx.pmp,
    orders := ctx.orders, logs := trimLogs actx.logs,
    innovations := actx.innovations, nextOid := ctx.nextOid }, pt)

/-- `simTick` (part_000 lines 562-796): one full engine step, returning
the new state and the recorded metrics point. -/
def simTick (E : Env) (s : SimState) : LRand (SimState × Point) := do
  let t := s.t + 1
  let prevPrice := s.price
  let price := if E.priceManual then max pMin E.manualPrice else s.price
  let cres ← consumersStep E t prevPrice price s.consumers
  let pres ← pbcPlanningStep E t price cres.2 s.firmsPBC s.firmsPFP s.nextOid
  simTickRest E s t price cres.2 cres.1 pres.1 (s.orders ++ pres.2.1) pres.2.2

/-- Run `n` consecutive ticks, collecting the recorded metrics points in
order. -/
def runTicks (E : Env) : ℕ → SimState → LRand (SimState × List Point)
  | 0, s => pure (s, [])
  | n + 1, s => do
    let r ← simTick E s
    let rest ← runTicks E n r.1
    pure (rest.1, r.2 :: rest.2)

/-! ## Initialization calibration (part_000 `initSimulation`, lines 508-519)
and the session oracle (part_000 `oracleDemandAt`, lines 838-854) -/

/-- One pass of the aggregate-demand sum inside the calibration loop:
`for (const c of s.consumers) Qagg += computeConsumerDemand(c, p0, rng)`. -/
def calibAgg (E : Env) (cs : List Consumer) (p : ℚ) : LRand ℚ :=
  cs.foldlM
    (fun acc c => do
      let q ← computeConsumerDemand E c p
      pure (acc + q))
    0

/-- `oferta = max(1, sum of PBC capacities)` (part_000 line 513). -/
def oferta (pbc : List Firm) : ℚ := max 1 ((pbc.map (fun f => f.capacity)).sum)

/-- The calibration loop body (part_000 lines 510-517), with the
remaining iteration count as fuel: stop when
`|Qagg - oferta| < 1e-2 * max(1, oferta)`, otherwise scale the price by
1.05 (excess demand) or 0.95 (excess supply) and continue. -/
def calibLoop (E : Env) (cs : List Consumer) (pbc : List Firm) :
    ℕ → ℚ → LRand ℚ
  | 0, p => pure p
  | fuel + 1, p => do
    let Qagg ← calibAgg E cs p
    if |Qagg - oferta pbc| < 0.01 * max 1 (oferta pbc) then pure p
    else if Qagg > oferta pbc then calibLoop E cs pbc fuel (p * 1.05)
    else calibLoop E cs pbc fuel (p * 0.95)

/-- The initial-price approximation of `initSimulation`: at most 40
iterations starting from `DEFAULT.p0 = 1.0`. -/
def initialPrice (E : Env) (cs : List Consumer) (pbc : List Firm) : LRand ℚ :=
  calibLoop E cs pbc 40 1

/-- `oracleDemandAt` (part_000 lines 838-854): the true, noise-free
aggregate demand of the hidden consumers at a price. -/
def oracleDemandAt (E : Env) (cs : List Consumer) (p : ℚ) : ℚ :=
  (cs.map
    (fun c =>
      match c.type with
      | CType.linear => max 0 (c.a - c.b * p)
      | CType.log => max 0 (c.a - c.b * E.jsLog (1 + max 0 p))
      | CType.exp => max 0 (c.a * E.jsExp (-(c.b * p)))
      | CType.poly => max 0 (c.a - c.b * p - max 0.001 (c.b * 0.01) * p * p))).sum

/-! ## Ordinary least squares (part_000 lines 54-68; identical in
part_001 lines 69-83) -/

/-- `olsLinear(x, y)`: fit `q = a + b * p`, returning the pair `(a, b)`;
an empty `x` yields `(0, 0)` and a zero denominator yields slope `0`. -/
def olsLinear (x y : List ℚ) : ℚ × ℚ :=
  let n := x.length
  if n = 0 then (0, 0)
  else
    let meanX := x.sum / (n : ℚ)
    let meanY := y.sum / (n : ℚ)
    let num := ((List.range n).map (fun i => (x.getD i 0 - meanX) * (y.getD i 0 - meanY))).sum
    let den := ((List.range n).map (fun i => (x.getD i 0 - meanX) ^ 2)).sum
    let b := if den = 0 then 0 else num / den
    (meanY - b * meanX, b)

/-! ## The simpler variant's cited steps (src/unnamed/part_001) -/

/-- Firm of the simpler variant (part_001 lines 244-290), which also
tracks a cash balance; history entries are
`(t, produced, revenue, cost, cash)`. -/
structure Firm001 where
  fid : ℕ
  A : ℚ
  capacity : ℚ
  marginalCost : ℚ
  cash : ℚ
  inventory : ℚ
  planned : ℚ
  history : List (ℤ × ℚ × ℚ × ℚ × ℚ)
deriving DecidableEq, Repr

/-- PBC production of the simpler variant (part_001 lines 521-539):
`possible = min(planned, inventory + capacity)`;
`produced = max(0, possible)`; `consumed = min(inventory, produced)`;
inventory decreases by `consumed` only, and the cash balance moves by
`price * produced - marginalCost * produced`. -/
def pbcProduce001 (price : ℚ) (t : ℤ) (f : Firm001) : Firm001 × ℚ :=
  let possible := min f.planned (f.inventory + f.capacity)
  let produced := max 0 possible
  let consumed := min f.inventory produced
  let revenue := price * produced
  let cost := f.marginalCost * produced
  ({ f with inventory := f.inventory - consumed,
            cash := f.cash + (revenue - cost),
            history := f.history ++ [(t, produced, revenue, cost, f.cash + (revenue - cost))] },
    produced)

/-- Price adjustment of the simpler variant (part_001 lines 554-557):
the gap divisor is `Qd` itself, not `max(1, Qd)`. -/
def priceAdjust001 (Qd Qserved price : ℚ) : ℚ :=
  let delta := if Qd = 0 then 0 else (Qd - Qserved) / Qd
  max pMin (price * (1 + pPriceAdjustGain * delta))

/-- Innovation adoption of the simpler variant (part_001 lines 573-577):
both multipliers are applied exactly, with no floor on the marginal
cost. -/
def innovAdopt001 (costMul tfpMul : ℚ) (f : Firm001) : Firm001 :=
  { f with marginalCost := f.marginalCost * costMul, A := f.A * tfpMul }

/-! ## The tick under a faulty perceived-demand override (claim C8)

`simTick` calls the override inside the PBC planning loop with no
try/catch and no finiteness guard (part_000 lines 623-644); the only
try/catch sits around the whole `simTick()` call in the driving interval
(part_000 lines 805-818).  An override that throws is modelled as a
function into `Option ℚ` returning `none`; the exception propagates out
of the tick, so the faulty-override tick returns `none` (no new state, no
recorded point). -/

/-- PBC planning with an override that may throw: identical to
`pbcPlanningStep` with the override active, except that a `none`
evaluation aborts the loop (and, through `simTickE`, the tick). -/
def pbcPlanningStepE (fnE : ℚ → Option ℚ) (t : ℤ) (price : ℚ)
    (pbc pfp : List Firm) (nextOid : ℕ) :
    LRand (Option (List Firm × List Order × ℕ)) :=
  let sumA := max 0.000001 ((pbc.map (fun f => f.A * jsOr f.capacity 1)).sum)
  pbc.foldlM
    (fun acc f =>
      match acc with
      | none => pure none
      | some acc => do
        let share := f.A * jsOr f.capacity 1 / sumA
        match fnE price with
        | none => pure none
        | some perceived =>
          let plan := max 0 perceived * share
          let f' := { f with planned := plan }
          if plan > f.inventory then do
            let idx ← pickIndex pfp.length
            match (if 0 ≤ idx then pfp.get? idx.toNat else none) with
            | some pf => do
              let d ← randRange 5 15
              let o : Order :=
                ⟨acc.2.2, OrderLevel.pbcToPfp, f.fid, pf.fid, plan - f.inventory,
                  t + jsRound d, false, none⟩
              pure (some (acc.1 ++ [f'], acc.2.1 ++ [o], acc.2.2 + 1))
            | none => pure (some (acc.1 ++ [f'], acc.2.1, acc.2.2))
          else
            pure (some (acc.1 ++ [f'], acc.2.1, acc.2.2)))
    (some ([], [], nextOid))

/-- One engine step with a throwing-capable override active: `none`
means the tick was aborted by the override's exception. -/
def simTickE (E : Env) (fnE : ℚ → Option ℚ) (s : SimState) :
    LRand (Option (SimState × Point)) := do
  let t := s.t + 1
  let prevPrice := s.price
  let price := if E.priceManual then max pMin E.manualPrice else s.price
  let cres ← consumersStep E t prevPrice price s.consumers
  let pres ← pbcPlanningStepE fnE t price s.firmsPBC s.firmsPFP s.nextOid
  match pres with
  | none => pure none
  | some r => do
    let out ← simTickRest E s t price cres.2 cres.1 r.1 (s.orders ++ r.2.1) r.2.2
    pure (some out)

/-! ## Invariant predicates and concrete scenario inputs -/

/-- Firm-level non-negativity invariant. -/
def InvFirm (f : Firm) : Prop := 0 ≤ f.inventory ∧ 0 ≤ f.capacity

instance (f : Firm) : Decidable (InvFirm f) := by unfold InvFirm; infer_instance

/-- State-level invariant: non-negative inventories, capacities and order
amounts, and distinct firm ids within each tier (true of every
initialized state, where ids are `PBC0, PBC1, ...`). -/
def InvState (s : SimState) : Prop :=
  (∀ f ∈ s.firmsPBC, InvFirm f) ∧ (∀ f ∈ s.firmsPFP, InvFirm f) ∧
  (∀ f ∈ s.firmsPMP, InvFirm f) ∧ (∀ o ∈ s.orders, 0 ≤ o.amount) ∧
  (s.firmsPBC.map Firm.fid).Nodup ∧ (s.firmsPFP.map Firm.fid).Nodup ∧
  (s.firmsPMP.map Firm.fid).Nodup

instance (s : SimState) : Decidable (InvState s) := by unfold InvState; infer_instance

/-- Invariant carried through the due-order loop: non-negative
inventories, capacities and amounts, distinct ids per tier. -/
def OrdInv (ctx : OrdCtx) : Prop :=
  (∀ f ∈ ctx.pbc, InvFirm f) ∧ (∀ f ∈ ctx.pfp, InvFirm f) ∧
  (∀ f ∈ ctx.pmp, InvFirm f) ∧ (∀ o ∈ ctx.orders, 0 ≤ o.amount) ∧
  (ctx.pbc.map Firm.fid).Nodup ∧ (ctx.pfp.map Firm.fid).Nodup ∧
  (ctx.pmp.map Firm.fid).Nodup

/-- Invariant carried through the adoption loop: non-negative inventories
and capacities and distinct ids per tier (the innovations and logs fields
are unconstrained). -/
def AdoptInv (ctx : AdoptCtx) : Prop :=
  (∀ f ∈ ctx.pbc, InvFirm f) ∧ (∀ f ∈ ctx.pfp, InvFirm f) ∧
  (∀ f ∈ ctx.pmp, InvFirm f) ∧
  (ctx.pbc.map Firm.fid).Nodup ∧ (ctx.pfp.map Firm.fid).Nodup ∧
  (ctx.pmp.map Firm.fid).Nodup

/-- The all-zeros stream (a valid draw sequence: every value is in
`[0, 1)`; it makes every `randRange` return its lower bound). -/
def gZero : ℕ → ℚ := fun _ => 0

/-- A stream differing from `gZero` only at position 0 (for the
determinism witness). -/
def gHalfAt0 : ℕ → ℚ := fun k => if k = 0 then 1 / 2 else 0

/-- A neutral environment: auto price mode, no override, no feedback. -/
def envPlain : Env := ⟨false, 1, none, 0, fun q => q, fun q => q⟩

/-- The empty engine state. -/
def stateEmpty : SimState := ⟨0, 1, [], [], [], [], [], [], [], 0⟩

/-- Environment of the shortage-cascade scenario (spec Scenario B): auto
price, perceived-demand override pinned at 1000 (so the Final firm plans
1000 every tick), phase-A feedback strength. -/
def envCascade : Env := ⟨false, 1, some (fun _ => 1000), 0.05, fun q => q, fun q => q⟩

/-- State of the shortage-cascade scenario: no consumers; one Final firm
with capacity 0 and inventory 0; one Intermediate and one Raw firm with
inventory 0. -/
def stateCascade : SimState :=
  ⟨0, 1, [], [⟨0, 1, 0, 0.5, 0, 0, []⟩], [⟨0, 1, 0, 0.3, 0, 0, []⟩],
    [⟨0, 1, 0, 0.2, 0, 0, []⟩], [], [], [], 0⟩

/-- Manual-price environment whose pinned value `2.00001` has more than
four decimal digits. -/
def envManualX : Env := ⟨true, 2 + 1 / 100000, none, 0, fun q => q, fun q => q⟩

/-- Manual-price environment pinning the spec's Scenario C value 2.5. -/
def envManual25 : Env := ⟨true, 2.5, none, 0, fun q => q, fun q => q⟩

/-- A simpler-variant Final firm with `planned = 5`, empty inventory and
capacity 10 (any tick in which perceived demand exceeds a firm's carried
inventory produces such a configuration). -/
def f001ex : Firm001 := ⟨0, 1, 10, 0.5, 0, 0, 5, []⟩

/-- A firm whose marginal cost has been driven down to the floor `0.01`
by an earlier adoption (`marginalCost = max 0.01 _` after any adoption). -/
def firmC6 : Firm := ⟨0, 1, 10, 0.01, 0, 0, []⟩

/-- An innovation for `firmC6` with `costMul = 0.95`, `tfpMul = 1.1`,
scheduled at tick 0 and adopted at tick 5. -/
def innovC6 : Innov := ⟨0, Tier.PBC, 0.95, 1.1, 0, 5, false⟩

/-- Adoption context holding exactly `firmC6` and `innovC6`. -/
def ctxC6 : AdoptCtx := ⟨[firmC6], [], [], [innovC6], []⟩

/-- One spec Scenario A consumer: linear with `a = 120`, `b = 6`. -/
def scenarioConsumer : Consumer := ⟨CType.linear, 120, 6, 0, 1000, 0, 1000⟩

/-- The 350 linear-only consumers of Scenario A. -/
def scenarioConsumers : List Consumer := List.replicate 350 scenarioConsumer

/-- The single Final firm of Scenario A, with capacity 1000. -/
def scenarioPBC : List Firm := [⟨0, 1, 1000, 0.5, 0, 0, []⟩]

/-! # Theorems -/

unseal Rat.add Rat.mul Rat.inv Rat.sub Rat.ofScientific

/-- Running a `pure` computation returns the value without consuming
draws. -/
@[simp] theorem runR_pure {α : Type} (a : α) (g : ℕ → ℚ) (n : ℕ) :
    runR (pure a) g n = (a, n) := rfl

/-- Running a bind threads the stream position. -/
@[simp] theorem runR_bind {α β : Type} (m : LRand α) (f : α → LRand β) (g : ℕ → ℚ) (n : ℕ) :
    runR (m >>= f) g n = runR (f (runR m g n).1) g (runR m g n).2 := rfl

/-- Running `nextR` reads the current position and advances it. -/
@[simp] theorem runR_next (g : ℕ → ℚ) (n : ℕ) : runR nextR g n = (g n, n + 1) := rfl

/-- The mixed 32-bit output of `mulberry32` is a 32-bit word. -/
theorem mulberryMix_lt (a : ℕ) : mulberryMix a < 2 ^ 32 := by
  unfold mulberryMix
  have h0 : u32 a < 2 ^ 32 := Nat.mod_lt _ (by norm_num)
  have h1 : u32 ((u32 a ^^^ (u32 a >>> 15)) * (u32 a ||| 1)) < 2 ^ 32 :=
    Nat.mod_lt _ (by norm_num)
  set t1 := u32 ((u32 a ^^^ (u32 a >>> 15)) * (u32 a ||| 1)) with ht1
  have h2 : t1 ^^^ u32 (t1 + u32 ((t1 ^^^ (t1 >>> 7)) * (t1 ||| 61))) < 2 ^ 32 :=
    Nat.xor_lt_two_pow h1 (Nat.mod_lt _ (by norm_num))
  have hshift : (t1 ^^^ u32 (t1 + u32 ((t1 ^^^ (t1 >>> 7)) * (t1 ||| 61)))) >>> 14 ≤
      t1 ^^^ u32 (t1 + u32 ((t1 ^^^ (t1 >>> 7)) * (t1 ||| 61))) := by
    rw [Nat.shiftRight_eq_div_pow]
    exact Nat.div_le_self _ _
  exact Nat.xor_lt_two_pow h2 (Nat.lt_of_le_of_lt hshift h2)

/-- Every draw of a seeded `mulberry32` stream lies in `[0, 1)`. -/
theorem range01_mulberryStream (seed : ℕ) : Range01 (mulberryStream seed) := by
  intro k
  unfold mulberryStream mulberryQ
  constructor
  · positivity
  · rw [div_lt_one (by positivity)]
    have := mulberryMix_lt (seed + (k + 1) * 0x6d2b79f5)
    exact_mod_cast this

/-- The all-zeros stream is a valid draw sequence. -/
theorem range01_gZero : Range01 gZero := by
  intro k
  constructor <;> norm_num [gZero]

/-- Invariant preservation through a random fold: if the body preserves
`P` for every element of the list, the fold preserves `P`. -/
theorem runR_foldlM_inv {α β : Type} (g : ℕ → ℚ) (P : β → Prop) :
    ∀ (l : List α) (f : β → α → LRand β),
      (∀ b a n, a ∈ l → P b → P (runR (f b a) g n).1) →
      ∀ (b : β) (n : ℕ), P b → P (runR (l.foldlM f b) g n).1 := by
  intro l
  induction l with
  | nil =>
    intro f _ b n hb
    simpa [runR] using hb
  | cons a l ih =>
    intro f hf b n hb
    rw [List.foldlM_cons, runR_bind]
    exact ih f (fun b a n ha hb => hf b a n (List.mem_cons_of_mem _ ha) hb) _ _
      (hf b a n (List.mem_cons_self _ _) hb)

/-- Prefix-relational version of `runR_foldlM_inv`: the accumulator
stands in relation `R` to the prefix of elements already folded. -/
theorem runR_foldlM_rel {α β : Type} (g : ℕ → ℚ) (R : β → List α → Prop) :
    ∀ (l : List α) (f : β → α → LRand β),
      (∀ b pre a n, a ∈ l → R b pre → R (runR (f b a) g n).1 (pre ++ [a])) →
      ∀ (b : β) (n : ℕ) (pre : List α), R b pre →
        R (runR (l.foldlM f b) g n).1 (pre ++ l) := by
  intro l
  induction l with
  | nil =>
    intro f _ b n pre hb
    simpa [runR] using hb
  | cons a l ih =>
    intro f hf b n pre hb
    rw [List.foldlM_cons, runR_bind]
    have hstep := hf b pre a n (List.mem_cons_self _ _) hb
    have hgoal := ih f (fun b pre a n ha hb => hf b pre a n (List.mem_cons_of_mem _ ha) hb)
      (runR (f b a) g n).1 (runR (f b a) g n).2 (pre ++ [a]) hstep
    simpa [List.append_assoc] using hgoal

/-- C1: for any fixed overrides and any fixed initial state, the entire
`n`-tick run — in particular its metrics-point sequence — depends on the
draw stream only through the values at or beyond the starting stream
position: two runs over streams that agree there are identical, so the
tick is a deterministic function of the state, the overrides, and the
seeded random stream position. -/
theorem simC1_determinism (E : Env) (s : SimState) (n : ℕ) (g₁ g₂ : ℕ → ℚ) (pos : ℕ)
    (h : Agree pos g₁ g₂) :
    runR (runTicks E n s) g₁ pos = runR (runTicks E n s) g₂ pos :=
  (runTicks E n s).2.loc g₁ g₂ pos h

/-- Witness for `simC1_determinism`: the streams `gZero` and `gHalfAt0`
differ at position 0 but agree from position 1 on, so two one-tick runs
started at position 1 coincide. -/
theorem simC1_determinism_witness :
    Agree 1 gZero gHalfAt0 ∧
      runR (runTicks envPlain 1 stateEmpty) gZero 1 =
        runR (runTicks envPlain 1 stateEmpty) gHalfAt0 1 := by
  have hag : Agree 1 gZero gHalfAt0 := by
    intro k hk
    have : k ≠ 0 := Nat.one_le_iff_ne_zero.mp hk
    simp [gZero, gHalfAt0, this]
  exact ⟨hag, simC1_determinism envPlain stateEmpty 1 gZero gHalfAt0 1 hag⟩

/-- C10: on a non-empty sample whose prices are all equal the OLS
denominator `Σ (x - mean x)²` is zero, and `olsLinear` returns slope 0
and intercept `mean y` (the division is guarded, never executed); on an
empty sample it returns `(0, 0)`. -/
theorem simC10_ols_constant_prices (x y : List ℚ) (c : ℚ)
    (hx : x ≠ []) (hc : ∀ v ∈ x, v = c) (_hy : y.length = x.length) :
    olsLinear x y = (y.sum / (x.length : ℚ), 0) ∧ olsLinear [] y = (0, 0) := by
  refine ⟨?_, rfl⟩
  have hn0 : x.length ≠ 0 := fun h => hx (List.length_eq_zero.mp h)
  have hnq : (x.length : ℚ) ≠ 0 := Nat.cast_ne_zero.mpr hn0
  have hrep : x = List.replicate x.length c := List.eq_replicate_of_mem hc
  have hsum : x.sum = (x.length : ℚ) * c := by
    conv_lhs => rw [hrep]
    rw [List.sum_replicate, nsmul_eq_mul]
  have hmean : x.sum / (x.length : ℚ) = c := by
    rw [hsum]
    field_simp
  have hgetD : ∀ i, i < x.length → x.getD i 0 = c := by
    intro i hi
    rw [List.getD_eq_getElem _ _ hi]
    exact hc _ (List.getElem_mem hi)
  have hden :
      ((List.range x.length).map
        (fun i => (x.getD i 0 - x.sum / (x.length : ℚ)) ^ 2)).sum = 0 := by
    apply List.sum_eq_zero
    intro z hz
    obtain ⟨i, hi, rfl⟩ := List.mem_map.mp hz
    rw [hgetD i (List.mem_range.mp hi), hmean]
    ring
  unfold olsLinear
  simp only [if_neg hn0, hden, if_pos rfl, Prod.mk.injEq]
  norm_num

/-- Witness for `simC10_ols_constant_prices`: three observations all at
price 2 with quantities 3, 5, 10 give intercept 6 (their mean) and slope
0. -/
theorem simC10_ols_constant_prices_witness :
    ([(2 : ℚ), 2, 2] ≠ [] ∧ (∀ v ∈ [(2 : ℚ), 2, 2], v = 2) ∧
      ([(3 : ℚ), 5, 10].length = [(2 : ℚ), 2, 2].length)) ∧
    olsLinear [(2 : ℚ), 2, 2] [(3 : ℚ), 5, 10] =
      (([(3 : ℚ), 5, 10].sum / (([(2 : ℚ), 2, 2].length : ℚ))), 0) ∧
    olsLinear [] [(3 : ℚ), 5, 10] = (0, 0) := by
  refine ⟨⟨by simp, by simp, by simp⟩, ?_⟩
  exact simC10_ols_constant_prices [(2 : ℚ), 2, 2] [(3 : ℚ), 5, 10] 2
    (by simp) (by simp) (by simp)

/-- C7 (amended): in the shortage-cascade scenario (one Final firm with
capacity 0 and inventory 0, one Intermediate and one Raw firm with
inventory 0, perceived demand pinned at 1000, all draws at their lower
bound so the transit delay is the minimum 5), the order placed at tick 1
(serial 0, amount 1000, due `1 + 5 = 6`) is still unfilled after tick 6;
its first escalated Intermediate→Raw child appears at its due tick 6, and
— because a due unfilled parent is reprocessed every tick — a second
child for the same parent appears at tick 7, before any order has been
filled. -/
theorem simC7_cascade :
    findOrder (runR (runTicks envCascade 6 stateCascade) gZero 0).1.1.orders 0 =
      some ⟨0, OrderLevel.pbcToPfp, 0, 0, 1000, 6, false, none⟩ ∧
    ((runR (runTicks envCascade 6 stateCascade) gZero 0).1.1.orders.filter
      (fun o => o.orig == some 0)).length = 1 ∧
    ((runR (runTicks envCascade 7 stateCascade) gZero 0).1.1.orders.filter
      (fun o => o.orig == some 0)).length = 2 ∧
    (∀ o ∈ (runR (runTicks envCascade 7 stateCascade) gZero 0).1.1.orders,
      o.filled = false) := by decide

/-- C7 counterexample: the claim's "exactly one escalated
Intermediate→Raw child order is created before any fill occurs" is false:
after tick 7 of the shortage-cascade run the tick-1 parent order has two
escalated children while no order has been filled yet. -/
theorem simC7_counterexample :
    2 ≤ ((runR (runTicks envCascade 7 stateCascade) gZero 0).1.1.orders.filter
          (fun o => o.orig == some 0)).length ∧
    (∀ o ∈ (runR (runTicks envCascade 7 stateCascade) gZero 0).1.1.orders,
      o.filled = false) := by decide

/-- C8: a perceived-demand override that throws (modelled as returning
`none`) aborts the whole tick: `simTick` evaluates the override inside
the planning loop with no try/catch and no finiteness guard, so the
exception propagates out of the tick — no production, no price update and
no metrics point happen — instead of being treated as zero demand for
that evaluation. -/
theorem simC8_override_aborts_tick :
    (runR (simTickE envCascade (fun _ => none) stateCascade) gZero 0).1 = none ∧
    (runR (simTickE envCascade (fun _ => some 1000) stateCascade) gZero 0).1 =
      some (runR (simTick envCascade stateCascade) gZero 0).1 := by decide

/-- C2 counterexample: in the simpler variant a Final firm with
`planned = 5`, inventory 0 and capacity 10 serves 5 units — strictly more
than its pre-production inventory and different from
`min(planned, inventory, capacity) = 0` — so "served equals
min(planned, inventory-before-production, capacity)" is false on the
code. -/
theorem simC2_counterexample :
    (pbcProduce001 1 1 f001ex).2 = 5 ∧
    min f001ex.planned (min f001ex.inventory f001ex.capacity) = 0 ∧
    (pbcProduce001 1 1 f001ex).2 >
      min f001ex.planned (min f001ex.inventory f001ex.capacity) ∧
    (pbcProduce001 1 1 f001ex).2 > f001ex.inventory := by decide

/-- C3 counterexample: with aggregate demand 1/2, zero served and price
1, the simpler variant multiplies the price by `1 + 0.08 * 1` (gap
divisor `demand`), while the claim's formula multiplies by
`1 + 0.08 * 1/2` (gap divisor `max(1, demand)`): the recorded updates
differ, `27/25 ≠ 26/25`. -/
theorem simC3_counterexample :
    priceAdjust001 (1 / 2) 0 1 = 27 / 25 ∧
    max pMin (1 * (1 + pPriceAdjustGain * (((1 : ℚ) / 2 - 0) / max 1 (1 / 2)))) = 26 / 25 ∧
    priceAdjust001 (1 / 2) 0 1 ≠
      max pMin (1 * (1 + pPriceAdjustGain * (((1 : ℚ) / 2 - 0) / max 1 (1 / 2)))) := by
  refine ⟨?_, ?_, ?_⟩ <;> norm_num [priceAdjust001, pMin, pPriceAdjustGain]

/-- C4 counterexample: with the manual price pinned at `2.00001` (more
than four decimal digits), the recorded series price of the next tick is
the rounded value 2, not `max(priceFloor, 2.00001)`: recording passes
through `Number(price.toFixed(4))`. -/
theorem simC4_counterexample :
    (runR (simTick envManualX stateEmpty) gZero 0).1.2.price = 2 ∧
    max pMin envManualX.manualPrice = 2 + 1 / 100000 ∧
    (runR (simTick envManualX stateEmpty) gZero 0).1.2.price ≠
      max pMin envManualX.manualPrice := by decide

/-- C6 counterexample: adopting an innovation with `costMul = 0.95` on a
firm whose marginal cost sits at the floor `0.01` (reachable: any earlier
adoption leaves `marginalCost = max(0.01, _) ≥ 0.01`, and a further one
can land exactly on `0.01`) leaves the cost at `0.01` instead of
multiplying it by exactly `0.95`, because adoption applies
`max(0.01, marginalCost * costMul)`. -/
theorem simC6_counterexample :
    (adoptFirmUpdate innovC6 firmC6).marginalCost = 1 / 100 ∧
    firmC6.marginalCost * innovC6.costMul = 19 / 2000 ∧
    (adoptFirmUpdate innovC6 firmC6).marginalCost ≠
      firmC6.marginalCost * innovC6.costMul := by decide

/-- Unfolding of the PBC serve loop: the firms are served pointwise and
`Qserved` is the sum of the individual served quantities. -/
theorem pbcServeStep_eq (t : ℤ) (fs : List Firm) :
    pbcServeStep t fs =
      (fs.map (fun f => (serveFirm t f).1), (fs.map (fun f => (serveFirm t f).2)).sum) := by
  have aux : ∀ (l : List Firm) (accL : List Firm) (accQ : ℚ),
      l.foldl (fun acc f => let r := serveFirm t f; (acc.1 ++ [r.1], acc.2 + r.2))
          (accL, accQ) =
        (accL ++ l.map (fun f => (serveFirm t f).1),
          accQ + (l.map (fun f => (serveFirm t f).2)).sum) := by
    intro l
    induction l with
    | nil => intro accL accQ; simp
    | cons f l ih =>
      intro accL accQ
      simp only [List.foldl_cons, List.map_cons, List.sum_cons, ih]
      simp [List.append_assoc, add_assoc]
  unfold pbcServeStep
  rw [aux]
  simp

/-- C2 (amended): in the planner variant each Final firm serves
`max(0, min(planned, inventoryBefore, capacity))` per tick — with the JS
quirk that a zero capacity is replaced by the default 9999 — its
inventory decreases by exactly the served amount and its history records
`(t, served)`; in particular served never exceeds the pre-production
inventory, and never exceeds capacity whenever the capacity is non-zero.
In the simpler variant, served is `max(0, min(planned, inventory +
capacity))` instead (it may exceed both inventory and capacity) and
inventory decreases by `min(inventory, served)`. -/
theorem simC2_serve_characterization (t : ℤ) (price : ℚ) (f : Firm) (f1 : Firm001)
    (pbc : List Firm) (hinv : 0 ≤ f.inventory) (hcap : 0 ≤ f.capacity) :
    ((serveFirm t f).2 = max 0 (min f.planned (min f.inventory (jsOr f.capacity 9999))) ∧
      (serveFirm t f).1.inventory = f.inventory - (serveFirm t f).2 ∧
      (serveFirm t f).1.history = f.history ++ [(t, (serveFirm t f).2)] ∧
      (serveFirm t f).2 ≤ f.inventory ∧
      (f.capacity ≠ 0 → (serveFirm t f).2 ≤ f.capacity)) ∧
    pbcServeStep t pbc =
      (pbc.map (fun f => (serveFirm t f).1), (pbc.map (fun f => (serveFirm t f).2)).sum) ∧
    ((pbcProduce001 price t f1).2 = max 0 (min f1.planned (f1.inventory + f1.capacity)) ∧
      (pbcProduce001 price t f1).1.inventory =
        f1.inventory - min f1.inventory (pbcProduce001 price t f1).2) := by
  refine ⟨⟨rfl, rfl, rfl, ?_, ?_⟩, pbcServeStep_eq t pbc, rfl, rfl⟩
  · exact max_le hinv (le_trans (min_le_right _ _) (min_le_left _ _))
  · intro hc0
    have : jsOr f.capacity 9999 = f.capacity := by simp [jsOr, hc0]
    rw [serveFirm, this]
    exact max_le hcap (le_trans (min_le_right _ _) (min_le_right _ _))

/-- Witness for `simC2_serve_characterization` at a concrete firm of each
variant. -/
theorem simC2_serve_characterization_witness :
    ((0 : ℚ) ≤ (⟨0, 1, 10, 0.5, 7, 5, []⟩ : Firm).inventory ∧
      (0 : ℚ) ≤ (⟨0, 1, 10, 0.5, 7, 5, []⟩ : Firm).capacity) ∧
    (serveFirm 1 ⟨0, 1, 10, 0.5, 7, 5, []⟩).2 =
      max 0 (min (5 : ℚ) (min 7 (jsOr 10 9999))) := by
  refine ⟨⟨by norm_num, by norm_num⟩, ?_⟩
  exact (simC2_serve_characterization 1 1 ⟨0, 1, 10, 0.5, 7, 5, []⟩ f001ex []
    (by norm_num) (by norm_num)).1.1

/-- C3 (amended): the planner variant's automatic price update is exactly
`price ← max(priceFloor, price * (1 + gain * gap))` with
`gap = (demand - served) / max(1, demand)` short-circuited to 0 at zero
demand (so the price is left unchanged there, never NaN or Infinity,
whenever it already sits at or above the floor), and the result is always
at least the floor; the simpler variant uses the divisor `demand` itself
instead of `max(1, demand)`. -/
theorem simC3_price_update (demand served price : ℚ) (hp : pMin ≤ price) :
    priceAdjustStep demand served price =
      max pMin (price * (1 + pPriceAdjustGain *
        (if demand = 0 then 0 else (demand - served) / max 1 demand))) ∧
    priceAdjustStep 0 served price = price ∧
    pMin ≤ priceAdjustStep demand served price ∧
    priceAdjust001 demand served price =
      max pMin (price * (1 + pPriceAdjustGain *
        (if demand = 0 then 0 else (demand - served) / demand))) ∧
    priceAdjust001 0 served price = price := by
  refine ⟨rfl, ?_, le_max_left _ _, rfl, ?_⟩
  · have h1 : priceAdjustStep 0 served price = max pMin price := by
      unfold priceAdjustStep
      norm_num
    rw [h1]
    exact max_eq_right hp
  · have h1 : priceAdjust001 0 served price = max pMin price := by
      unfold priceAdjust001
      norm_num
    rw [h1]
    exact max_eq_right hp

/-- Witness for `simC3_price_update` at demand 3, served 1, price 2. -/
theorem simC3_price_update_witness :
    pMin ≤ (2 : ℚ) ∧
    (priceAdjustStep 3 1 2 =
      max pMin (2 * (1 + pPriceAdjustGain *
        (if (3 : ℚ) = 0 then 0 else ((3 : ℚ) - 1) / max 1 3))) ∧
    priceAdjustStep 0 1 2 = 2 ∧
    pMin ≤ priceAdjustStep 3 1 2 ∧
    priceAdjust001 3 1 2 =
      max pMin (2 * (1 + pPriceAdjustGain *
        (if (3 : ℚ) = 0 then 0 else ((3 : ℚ) - 1) / 3))) ∧
    priceAdjust001 0 1 2 = 2) := by
  have hp : pMin ≤ (2 : ℚ) := by norm_num [pMin]
  exact ⟨hp, simC3_price_update 3 1 2 hp⟩

/-- Manual-mode tick: the state price after the tick is exactly
`max(pMin, manualPrice)` and the recorded point carries its 4-digit
rounding, whatever the state, the draws, and the demand/served values of
the tick (the auto adjustment is skipped). -/
theorem simTick_manual_price (E : Env) (hE : E.priceManual = true) (s : SimState)
    (g : ℕ → ℚ) (n : ℕ) :
    (runR (simTick E s) g n).1.1.price = max pMin E.manualPrice ∧
    (runR (simTick E s) g n).1.2.price = toFixedQ 4 (max pMin E.manualPrice) := by
  simp [simTick, simTickRest, mkPoint, hE]

/-- C4 (amended): with manual mode active and manual price `v`, every
tick's internal price is pinned to exactly `max(priceFloor, v)`,
independent of demand and served quantities (the auto adjustment is not
applied); the recorded series price of every tick equals that pinned
value rounded to 4 decimal digits — hence equals `max(priceFloor, v)`
exactly precisely when the pinned value has at most 4 decimal digits, as
in the spec's Scenario C value 2.5. -/
theorem simC4_manual_pin (E : Env) (hE : E.priceManual = true) :
    ∀ (n : ℕ) (s : SimState) (g : ℕ → ℚ) (pos : ℕ),
      (∀ pt ∈ (runR (runTicks E n s) g pos).1.2,
        pt.price = toFixedQ 4 (max pMin E.manualPrice)) ∧
      (0 < n → (runR (runTicks E n s) g pos).1.1.price = max pMin E.manualPrice) := by
  intro n
  induction n with
  | zero =>
    intro s g pos
    refine ⟨?_, ?_⟩
    · intro pt hpt
      rw [runTicks] at hpt
      simp only [runR_pure] at hpt
      exact absurd hpt (List.not_mem_nil pt)
    · intro h
      exact absurd h (lt_irrefl 0)
  | succ n ih =>
    intro s g pos
    rw [runTicks]
    constructor
    · intro pt hpt
      simp only [runR_bind, runR_pure] at hpt
      rcases List.mem_cons.mp hpt with h | h
      · rw [h]
        exact (simTick_manual_price E hE s g pos).2
      · exact (ih _ _ _).1 pt h
    · intro _
      simp only [runR_bind, runR_pure]
      rcases Nat.eq_zero_or_pos n with hn | hn
      · subst hn
        simp only [runTicks, runR_pure]
        exact (simTick_manual_price E hE s g pos).1
      · exact (ih _ _ _).2 hn

/-- Witness for `simC4_manual_pin`: three ticks with manual price 2.5
(Scenario C) record `toFixedQ 4 (max pMin 2.5) = 2.5` at every tick. -/
theorem simC4_manual_pin_witness :
    envManual25.priceManual = true ∧
    ((∀ pt ∈ (runR (runTicks envManual25 3 stateEmpty) gZero 0).1.2,
        pt.price = toFixedQ 4 (max pMin envManual25.manualPrice)) ∧
      (0 < 3 → (runR (runTicks envManual25 3 stateEmpty) gZero 0).1.1.price =
        max pMin envManual25.manualPrice)) :=
  ⟨rfl, simC4_manual_pin envManual25 rfl 3 stateEmpty gZero 0⟩

/-- Any innovation emitted by the scheduling step carries
`scheduleAt = t`, an adoption tick at least 10 later, and is initially
unadopted. -/
theorem innovationStep_schedule (t : ℤ) (pbc pfp pmp : List Firm) (g : ℕ → ℚ) (n : ℕ)
    (hg : Range01 g) (j : Innov)
    (hj : (runR (innovationStep t pbc pfp pmp) g n).1 = some j) :
    j.scheduleAt = t ∧ j.scheduleAt + 10 ≤ j.adoptAt ∧ j.adopted = false := by
  simp only [innovationStep, runR_bind, runR_next, runR_pure, pickIndex, randRange] at hj
  split at hj
  · simp only [runR_bind, runR_next, runR_pure] at hj
    split at hj
    · simp only [runR_pure] at hj
      exact absurd hj (by simp)
    · split at hj
      · simp only [runR_bind, runR_next, runR_pure] at hj
        split at hj
        · simp only [runR_bind, runR_next, runR_pure, Option.some.injEq] at hj
          subst hj
          refine ⟨rfl, ?_, rfl⟩
          show t + 10 ≤ t + jsRound (10 + (60 - 10) * g (n + 1 + 1 + 1 + 1 + 1))
          have h10 : (10 : ℤ) ≤ jsRound (10 + (60 - 10) * g (n + 1 + 1 + 1 + 1 + 1)) := by
            unfold jsRound
            rw [Int.le_floor]
            have := (hg (n + 1 + 1 + 1 + 1 + 1)).1
            push_cast
            linarith
          omega
        · simp only [runR_pure] at hj
          exact absurd hj (by simp)
      · simp only [runR_pure] at hj
        exact absurd hj (by simp)
  · simp only [runR_pure] at hj
    exact absurd hj (by simp)

/-- C6 (amended): an adoption applies `A ← (A || 1) * tfpMul` — exactly
`A * tfpMul` whenever `A ≠ 0` — and
`marginalCost ← max(0.01, marginalCost * costMul)` — exactly
`marginalCost * costMul` only when that product is at least the 0.01
floor — in the planner variant, while the simpler variant multiplies both
exactly; a scheduled-and-due innovation is adopted exactly once (adoption
marks it `adopted`, and the adoption loop ignores adopted or not-yet-due
innovations, so the same innovation never changes the firm again); every
scheduled innovation satisfies `adoptAt ≥ scheduleAt + 10 > scheduleAt`. -/
theorem simC6_innovation_adoption
    (t : ℤ) (i : Innov) (f : Firm) (f1 : Firm001)
    (pfpL pmpL : List Firm) (logsL : List (ℤ × LogKind))
    (g : ℕ → ℚ) (n : ℕ) (pbc pfp pmp : List Firm)
    (hg : Range01 g) (hfid : f.fid = i.firm) (hlvl : i.level = Tier.PBC) :
    ((adoptFirmUpdate i f).A = jsOr f.A 1 * i.tfpMul ∧
      (f.A ≠ 0 → (adoptFirmUpdate i f).A = f.A * i.tfpMul) ∧
      (adoptFirmUpdate i f).marginalCost = max 0.01 (f.marginalCost * i.costMul) ∧
      (0.01 ≤ f.marginalCost * i.costMul →
        (adoptFirmUpdate i f).marginalCost = f.marginalCost * i.costMul)) ∧
    ((innovAdopt001 i.costMul i.tfpMul f1).marginalCost = f1.marginalCost * i.costMul ∧
      (innovAdopt001 i.costMul i.tfpMul f1).A = f1.A * i.tfpMul) ∧
    ((i.adopted = false → i.adoptAt ≤ t →
        adoptStep t ⟨[f], pfpL, pmpL, [i], logsL⟩ =
          ⟨[adoptFirmUpdate i f], pfpL, pmpL, [{ i with adopted := true }],
            logsL ++ [(t, LogKind.innovationAdopted)]⟩) ∧
      (i.adopted = false → ¬ i.adoptAt ≤ t →
        adoptStep t ⟨[f], pfpL, pmpL, [i], logsL⟩ = ⟨[f], pfpL, pmpL, [i], logsL⟩) ∧
      (i.adopted = true →
        adoptStep t ⟨[f], pfpL, pmpL, [i], logsL⟩ = ⟨[f], pfpL, pmpL, [i], logsL⟩)) ∧
    (∀ j, (runR (innovationStep t pbc pfp pmp) g n).1 = some j →
      j.scheduleAt = t ∧ j.scheduleAt + 10 ≤ j.adoptAt ∧ j.adopted = false) := by
  refine ⟨⟨rfl, ?_, rfl, ?_⟩, ⟨rfl, rfl⟩, ⟨?_, ?_, ?_⟩, ?_⟩
  · intro hA0
    simp [adoptFirmUpdate, jsOr, hA0]
  · intro hmc
    simp [adoptFirmUpdate, max_eq_right hmc]
  · intro had hdue
    simp [adoptStep, adoptOne, findFirm, updateFirm, adoptFirmUpdate, had, hdue, hlvl,
      hfid, List.range_succ]
  · intro had hdue
    simp [adoptStep, adoptOne, had, hdue, List.range_succ]
  · intro had
    simp [adoptStep, adoptOne, had, List.range_succ]
  · intro j hj
    exact innovationStep_schedule t pbc pfp pmp g n hg j hj

/-- Witness for `simC6_innovation_adoption` at `firmC6` / `innovC6`
(marginal cost at the floor, `costMul = 0.95`, `tfpMul = 1.1`,
`adoptAt = 5`). -/
theorem simC6_innovation_adoption_witness :
    (Range01 gZero ∧ firmC6.fid = innovC6.firm ∧ innovC6.level = Tier.PBC) ∧
    (((adoptFirmUpdate innovC6 firmC6).A = jsOr firmC6.A 1 * innovC6.tfpMul ∧
      (firmC6.A ≠ 0 → (adoptFirmUpdate innovC6 firmC6).A = firmC6.A * innovC6.tfpMul) ∧
      (adoptFirmUpdate innovC6 firmC6).marginalCost =
        max 0.01 (firmC6.marginalCost * innovC6.costMul) ∧
      (0.01 ≤ firmC6.marginalCost * innovC6.costMul →
        (adoptFirmUpdate innovC6 firmC6).marginalCost =
          firmC6.marginalCost * innovC6.costMul)) ∧
    ((innovAdopt001 innovC6.costMul innovC6.tfpMul f001ex).marginalCost =
        f001ex.marginalCost * innovC6.costMul ∧
      (innovAdopt001 innovC6.costMul innovC6.tfpMul f001ex).A =
        f001ex.A * innovC6.tfpMul) ∧
    ((innovC6.adopted = false → innovC6.adoptAt ≤ 5 →
        adoptStep 5 ⟨[firmC6], [], [], [innovC6], []⟩ =
          ⟨[adoptFirmUpdate innovC6 firmC6], [], [], [{ innovC6 with adopted := true }],
            [] ++ [(5, LogKind.innovationAdopted)]⟩) ∧
      (innovC6.adopted = false → ¬ innovC6.adoptAt ≤ 5 →
        adoptStep 5 ⟨[firmC6], [], [], [innovC6], []⟩ =
          ⟨[firmC6], [], [], [innovC6], []⟩) ∧
      (innovC6.adopted = true →
        adoptStep 5 ⟨[firmC6], [], [], [innovC6], []⟩ =
          ⟨[firmC6], [], [], [innovC6], []⟩)) ∧
    (∀ j, (runR (innovationStep 5 [] [] []) gZero 0).1 = some j →
      j.scheduleAt = 5 ∧ j.scheduleAt + 10 ≤ j.adoptAt ∧ j.adopted = false)) :=
  ⟨⟨range01_gZero, rfl, rfl⟩,
    simC6_innovation_adoption 5 innovC6 firmC6 f001ex [] [] [] gZero 0 [] [] []
      range01_gZero rfl rfl⟩

/-- For a Scenario A consumer (linear, `a = 120`, `b = 6`) at any price
up to 8, one noisy demand evaluation is at least `(120 - 6p) * 0.95`. -/
theorem scenario_demand_lb (E : Env) (p : ℚ) (g : ℕ → ℚ) (n : ℕ)
    (hg : Range01 g) (hp : p ≤ 8) :
    (120 - 6 * p) * (19 / 20) ≤ (runR (computeConsumerDemand E scenarioConsumer p) g n).1 := by
  have h1 := (hg n).1
  have h2 := (hg n).2
  have h72 : (0 : ℚ) ≤ 120 - 6 * p := by linarith
  simp only [computeConsumerDemand, runR_bind, runR_next, runR_pure, scenarioConsumer]
  refine le_trans ?_ (le_max_right 0 _)
  nlinarith [h1, h72]

/-- The noisy aggregate demand computed by one calibration iteration over
the 350 Scenario A consumers is at least `350 * (120 - 6p) * 0.95`. -/
theorem calibAgg_lb (E : Env) (p : ℚ) (g : ℕ → ℚ) (n : ℕ)
    (hg : Range01 g) (hp : p ≤ 8) :
    350 * ((120 - 6 * p) * (19 / 20)) ≤ (runR (calibAgg E scenarioConsumers p) g n).1 := by
  have hrel := runR_foldlM_rel g
    (fun (q : ℚ) (pre : List Consumer) => (pre.length : ℚ) * ((120 - 6 * p) * (19 / 20)) ≤ q)
    scenarioConsumers
    (fun acc c => do
      let q ← computeConsumerDemand E c p
      pure (acc + q))
    ?_ 0 n [] (by norm_num)
  · have h350 : (scenarioConsumers.length : ℚ) = 350 := by
      norm_num [scenarioConsumers]
    have := hrel
    simp only [List.nil_append] at this
    rw [h350] at this
    calc 350 * ((120 - 6 * p) * (19 / 20)) ≤ _ := this
      _ = (runR (calibAgg E scenarioConsumers p) g n).1 := by rw [calibAgg]
  · intro b pre c m hc hb
    have hcs : c = scenarioConsumer := List.eq_of_mem_replicate hc
    subst hcs
    simp only [runR_bind, runR_pure]
    have hq := scenario_demand_lb E p g m hg hp
    have hlen : ((pre ++ [scenarioConsumer]).length : ℚ) = (pre.length : ℚ) + 1 := by
      simp
    rw [hlen]
    nlinarith [hb, hq]

set_option maxRecDepth 8000 in
/-- The calibration loop of Scenario A never meets the 1% tolerance: at
every iteration the noisy demand stays above 23940 while supply is 1000,
so the loop multiplies the price by 1.05 at each of its remaining
iterations. -/
theorem calibLoop_pow (E : Env) (g : ℕ → ℚ) (hg : Range01 g) :
    ∀ (fuel k n : ℕ), fuel + k ≤ 40 →
      (runR (calibLoop E scenarioConsumers scenarioPBC fuel ((21 / 20 : ℚ) ^ k)) g n).1 =
        (21 / 20 : ℚ) ^ (k + fuel) := by
  intro fuel
  induction fuel with
  | zero =>
    intro k n _
    simp [calibLoop, runR_pure]
  | succ fuel ih =>
    intro k n hk
    have h8 : ((21 : ℚ) / 20) ^ 40 < 8 := by norm_num
    have hkle : ((21 / 20 : ℚ) ^ k) ≤ (21 / 20 : ℚ) ^ 40 :=
      pow_le_pow_right₀ (by norm_num) (by omega)
    have hple : ((21 / 20 : ℚ) ^ k) ≤ 8 := le_trans hkle (le_of_lt h8)
    have hofer : oferta scenarioPBC = 1000 := by
      norm_num [oferta, scenarioPBC]
    have hQ := calibAgg_lb E ((21 / 20 : ℚ) ^ k) g n hg hple
    have hQbig : (23940 : ℚ) ≤ (runR (calibAgg E scenarioConsumers ((21 / 20 : ℚ) ^ k)) g n).1 := by
      have : (23940 : ℚ) ≤ 350 * ((120 - 6 * ((21 / 20 : ℚ) ^ k)) * (19 / 20)) := by
        nlinarith [hple]
      linarith
    rw [calibLoop]
    simp only [runR_bind]
    rw [if_neg, if_pos]
    · have h105 : ((21 / 20 : ℚ) ^ k) * 1.05 = (21 / 20 : ℚ) ^ (k + 1) := by
        rw [pow_succ]
        norm_num
      rw [h105, ih (k + 1) _ (by omega)]
      congr 1
      omega
    · rw [hofer]
      linarith
    · rw [hofer]
      rw [not_lt]
      have habs : |(runR (calibAgg E scenarioConsumers ((21 / 20 : ℚ) ^ k)) g n).1 - 1000| =
          (runR (calibAgg E scenarioConsumers ((21 / 20 : ℚ) ^ k)) g n).1 - 1000 :=
        abs_of_nonneg (by linarith)
      rw [habs]
      norm_num
      linarith

/-- Scenario A outcome, for every valid draw stream: the calibration loop
exhausts its 40 iterations, ends at price `1.05^40 ≈ 7.04`, and the
aggregate demand there misses total capacity 1000 by far more than the 1%
tolerance. -/
theorem calibScenario_result (E : Env) (g : ℕ → ℚ) (n : ℕ) (hg : Range01 g) :
    (runR (initialPrice E scenarioConsumers scenarioPBC) g n).1 = (21 / 20 : ℚ) ^ 40 ∧
    ¬ (|oracleDemandAt E scenarioConsumers ((21 / 20 : ℚ) ^ 40) -
          (scenarioPBC.map (fun f => f.capacity)).sum| <
        0.01 * (scenarioPBC.map (fun f => f.capacity)).sum) := by
  constructor
  · have h := calibLoop_pow E g hg 40 0 n (by omega)
    simpa [initialPrice] using h
  · have h8 : ((21 : ℚ) / 20) ^ 40 < 8 := by norm_num
    have hpos : (0 : ℚ) < (21 / 20 : ℚ) ^ 40 := by positivity
    have horacle : oracleDemandAt E scenarioConsumers ((21 / 20 : ℚ) ^ 40) =
        350 * max 0 (120 - 6 * (21 / 20 : ℚ) ^ 40) := by
      unfold oracleDemandAt scenarioConsumers scenarioConsumer
      rw [List.map_replicate, List.sum_replicate, nsmul_eq_mul]
      norm_num
    have hmax : max 0 (120 - 6 * (21 / 20 : ℚ) ^ 40) = 120 - 6 * (21 / 20 : ℚ) ^ 40 :=
      max_eq_right (by nlinarith)
    rw [horacle, hmax]
    have hcap : (scenarioPBC.map (fun f => f.capacity)).sum = 1000 := by
      norm_num [scenarioPBC]
    rw [hcap, not_lt]
    have hval : (24200 : ℚ) ≤ 350 * (120 - 6 * (21 / 20 : ℚ) ^ 40) - 1000 := by
      nlinarith
    rw [abs_of_nonneg (by linarith)]
    norm_num

/-- C9 (amended): with the Scenario A configuration (350 linear-only
consumers with `a = 120`, `b = 6`, one Final firm of capacity 1000,
initial price 1.0), whatever the seeded stream, the calibration loop's 1%
tolerance is never met: the 5% multiplicative steps can raise the price
only to `1.05^40 ≈ 7.04` in its 40 iterations while the demand at that
price still exceeds 25000, so the loop terminates at its iteration cap
with `|aggregateDemand(price) - totalCapacity| ≥ 0.01 * totalCapacity`
(gap above 24200, not below 10). -/
theorem simC9_calibration_cap (E : Env) (g : ℕ → ℚ) (n : ℕ) (hg : Range01 g) :
    (runR (initialPrice E scenarioConsumers scenarioPBC) g n).1 = (21 / 20 : ℚ) ^ 40 ∧
    ¬ (|oracleDemandAt E scenarioConsumers
          ((runR (initialPrice E scenarioConsumers scenarioPBC) g n).1) -
        (scenarioPBC.map (fun f => f.capacity)).sum| <
      0.01 * (scenarioPBC.map (fun f => f.capacity)).sum) := by
  obtain ⟨h1, h2⟩ := calibScenario_result E g n hg
  refine ⟨h1, ?_⟩
  rw [h1]
  exact h2

/-- Witness for `simC9_calibration_cap` on the all-zeros stream. -/
theorem simC9_calibration_cap_witness :
    Range01 gZero ∧
    ((runR (initialPrice envPlain scenarioConsumers scenarioPBC) gZero 0).1 =
        (21 / 20 : ℚ) ^ 40 ∧
      ¬ (|oracleDemandAt envPlain scenarioConsumers
            ((runR (initialPrice envPlain scenarioConsumers scenarioPBC) gZero 0).1) -
          (scenarioPBC.map (fun f => f.capacity)).sum| <
        0.01 * (scenarioPBC.map (fun f => f.capacity)).sum)) :=
  ⟨range01_gZero, simC9_calibration_cap envPlain gZero 0 range01_gZero⟩

/-- C9 counterexample: at the claim's own input — seed 12345, the 350
Scenario A consumers, the single capacity-1000 Final firm, price starting
at 1.0 — the calibration loop terminates with
`|aggregateDemand(price) - totalCapacity| ≥ 0.01 * totalCapacity`,
refuting the claimed tolerance. -/
theorem simC9_counterexample :
    ¬ (|oracleDemandAt envPlain scenarioConsumers
          ((runR (initialPrice envPlain scenarioConsumers scenarioPBC)
            (mulberryStream 12345) 0).1) -
        (scenarioPBC.map (fun f => f.capacity)).sum| <
      0.01 * (scenarioPBC.map (fun f => f.capacity)).sum) := by
  obtain ⟨h1, h2⟩ := calibScenario_result envPlain (mulberryStream 12345) 0
    (range01_mulberryStream 12345)
  rw [h1]
  exact h2

/-- Rounding to fixed decimals preserves non-negativity. -/
theorem toFixedQ_nonneg (d : ℕ) (q : ℚ) (hq : 0 ≤ q) : 0 ≤ toFixedQ d q := by
  unfold toFixedQ jsRound
  have h1 : (0 : ℤ) ≤ ⌊q * 10 ^ d + 1 / 2⌋ := by
    rw [Int.le_floor]
    push_cast
    positivity
  positivity

/-- One noisy consumer-demand evaluation is never negative (the code
floors it at 0). -/
theorem computeConsumerDemand_nonneg (E : Env) (c : Consumer) (p : ℚ) (g : ℕ → ℚ) (n : ℕ) :
    0 ≤ (runR (computeConsumerDemand E c p) g n).1 := by
  simp only [computeConsumerDemand, runR_bind, runR_next, runR_pure]
  exact le_max_left 0 _

/-- Under valid draws, the reaction factor is non-negative (each branch
draws from a positive range, or returns 1). -/
theorem consumerReact_nonneg (p₁ p₂ : ℚ) (g : ℕ → ℚ) (n : ℕ) (hg : Range01 g) :
    0 ≤ (runR (consumerReact p₁ p₂) g n).1 := by
  simp only [consumerReact, randRange]
  split
  · simp only [runR_pure]
    norm_num
  · simp only [runR_bind, runR_next, runR_pure]
    repeat' split
    all_goals simp only [runR_bind, runR_next, runR_pure]
    all_goals nlinarith [(hg (n + 1)).1]

/-- The per-consumer demand contribution of a tick is non-negative. -/
theorem consumerTick_nonneg (E : Env) (t : ℤ) (p₁ p₂ : ℚ) (c : Consumer)
    (g : ℕ → ℚ) (n : ℕ) (hg : Range01 g) :
    0 ≤ (runR (consumerTick E t p₁ p₂ c) g n).1.2 := by
  simp only [consumerTick, runR_bind]
  exact mul_nonneg (computeConsumerDemand_nonneg E _ p₂ g _) (consumerReact_nonneg p₁ p₂ g _ hg)

/-- The aggregate demand accumulated by the consumers loop is
non-negative. -/
theorem consumersStep_nonneg (E : Env) (t : ℤ) (p₁ p₂ : ℚ) (cs : List Consumer)
    (g : ℕ → ℚ) (n : ℕ) (hg : Range01 g) :
    0 ≤ (runR (consumersStep E t p₁ p₂ cs) g n).1.2 := by
  have h := runR_foldlM_inv g (fun (acc : List Consumer × ℚ) => 0 ≤ acc.2) cs
    (fun acc c => do
      let r ← consumerTick E t p₁ p₂ c
      pure (acc.1 ++ [r.1], acc.2 + r.2))
    ?_ ([], 0) n (by norm_num)
  · exact h
  · intro b c m _ hb
    simp only [runR_bind, runR_pure]
    have := consumerTick_nonneg E t p₁ p₂ c g m hg
    positivity

/-- Within a tier whose firm ids are distinct, a firm is determined by
its id. -/
theorem firm_eq_of_fid (fs : List Firm) (hnd : (fs.map Firm.fid).Nodup)
    {f f' : Firm} (hf : f ∈ fs) (hf' : f' ∈ fs) (h : f.fid = f'.fid) : f = f' :=
  List.inj_on_of_nodup_map hnd hf hf' h

/-- `updateFirm` with an id-preserving transform leaves the id list
unchanged. -/
theorem updateFirm_map_fid (fs : List Firm) (i : ℕ) (u : Firm → Firm)
    (hu : ∀ f, (u f).fid = f.fid) :
    (updateFirm fs i u).map Firm.fid = fs.map Firm.fid := by
  unfold updateFirm
  rw [List.map_map]
  apply List.map_congr_left
  intro f _
  by_cases h : f.fid = i
  · simp [h, hu]
  · simp [h]

/-- Pointwise invariant preservation for an `updateFirm` whose transform
preserves the invariant on every firm. -/
theorem invFirm_updateFirm_of (fs : List Firm) (i : ℕ) (u : Firm → Firm)
    (hall : ∀ f ∈ fs, InvFirm f) (hu : ∀ f, InvFirm f → InvFirm (u f)) :
    ∀ f ∈ updateFirm fs i u, InvFirm f := by
  intro f hf
  unfold updateFirm at hf
  obtain ⟨a, ha, rfl⟩ := List.mem_map.mp hf
  by_cases h : a.fid = i
  · simp only [beq_iff_eq, if_pos h]
    exact hu a (hall a ha)
  · simp only [beq_iff_eq, if_neg h]
    exact hall a ha

/-- Pointwise invariant preservation for an `updateFirm` targeting the
firm found by `findFirm`, given distinct ids: only the found firm is
changed, and the transformed found firm satisfies the invariant. -/
theorem invFirm_updateFirm_found (fs : List Firm) (i : ℕ) (u : Firm → Firm)
    (hnd : (fs.map Firm.fid).Nodup) (hall : ∀ f ∈ fs, InvFirm f)
    (fo : Firm) (hfo : findFirm fs i = some fo) (hu : InvFirm (u fo)) :
    ∀ f ∈ updateFirm fs i u, InvFirm f := by
  intro f hf
  unfold updateFirm at hf
  obtain ⟨a, ha, rfl⟩ := List.mem_map.mp hf
  have hfoMem : fo ∈ fs := List.mem_of_find?_eq_some hfo
  have hfoId : fo.fid = i := by
    have := List.find?_some hfo
    simpa using this
  by_cases h : a.fid = i
  · have haeq : a = fo := by
      apply firm_eq_of_fid fs hnd ha hfoMem
      rw [h, hfoId]
    simp only [beq_iff_eq]
    rw [haeq, if_pos hfoId]
    exact hu
  · simp only [beq_iff_eq, if_neg h]
    exact hall a ha

/-- `updateOrder` with an amount-preserving transform keeps all amounts
non-negative. -/
theorem updateOrder_amounts (os : List Order) (i : ℕ) (u : Order → Order)
    (hall : ∀ o ∈ os, 0 ≤ o.amount) (hu : ∀ o, (u o).amount = o.amount) :
    ∀ o ∈ updateOrder os i u, 0 ≤ o.amount := by
  intro o ho
  unfold updateOrder at ho
  obtain ⟨a, ha, rfl⟩ := List.mem_map.mp ho
  by_cases h : a.oid = i
  · simp only [beq_iff_eq, if_pos h, hu]
    exact hall a ha
  · simp only [beq_iff_eq, if_neg h]
    exact hall a ha

/-- Appending the planned-updated copy of an invariant firm preserves
the pointwise firm invariant. -/
theorem append_planned_inv (fs : List Firm) (a : Firm) (plan : ℚ)
    (hfs : ∀ f ∈ fs, InvFirm f) (hinva : InvFirm a) :
    ∀ f ∈ fs ++ [{ a with planned := plan }], InvFirm f := by
  intro f hf
  rcases List.mem_append.mp hf with h | h
  · exact hfs f h
  · rcases List.mem_singleton.mp h with rfl
    exact hinva

/-- Appending the planned-updated copy extends the id list by the firm's
id. -/
theorem append_planned_fid (fs pre : List Firm) (a : Firm) (plan : ℚ)
    (h : fs.map Firm.fid = pre.map Firm.fid) :
    (fs ++ [{ a with planned := plan }]).map Firm.fid = (pre ++ [a]).map Firm.fid := by
  simp [h]

/-- The planning loop preserves the firm invariants, keeps the firm id
list unchanged, and only emits orders with non-negative amounts (an order
is placed only when the plan strictly exceeds the inventory). -/
theorem pbcPlanningStep_inv (E : Env) (t : ℤ) (price Qagg : ℚ) (pbc pfp : List Firm)
    (oid : ℕ) (g : ℕ → ℚ) (n : ℕ) (hpbc : ∀ f ∈ pbc, InvFirm f) :
    (∀ f ∈ (runR (pbcPlanningStep E t price Qagg pbc pfp oid) g n).1.1, InvFirm f) ∧
    (runR (pbcPlanningStep E t price Qagg pbc pfp oid) g n).1.1.map Firm.fid =
      pbc.map Firm.fid ∧
    (∀ o ∈ (runR (pbcPlanningStep E t price Qagg pbc pfp oid) g n).1.2.1, 0 ≤ o.amount) := by
  have hrel := runR_foldlM_rel g
    (fun (acc : List Firm × List Order × ℕ) (pre : List Firm) =>
      (∀ f ∈ acc.1, InvFirm f) ∧ acc.1.map Firm.fid = pre.map Firm.fid ∧
        ∀ o ∈ acc.2.1, 0 ≤ o.amount)
    pbc
    (fun acc f => do
      let share := f.A * jsOr f.capacity 1 /
        max 0.000001 ((pbc.map (fun f => f.A * jsOr f.capacity 1)).sum)
      let perceived ←
        match E.userFn with
        | some fn => pure (fn price)
        | none => do
          let u ← nextR
          pure (Qagg * (0.85 + 0.3 * u))
      let plan := max 0 perceived * share
      let f' := { f with planned := plan }
      if plan > f.inventory then do
        let idx ← pickIndex pfp.length
        match (if 0 ≤ idx then pfp.get? idx.toNat else none) with
        | some pf => do
          let d ← randRange 5 15
          let o : Order :=
            ⟨acc.2.2, OrderLevel.pbcToPfp, f.fid, pf.fid, plan - f.inventory,
              t + jsRound d, false, none⟩
          pure (acc.1 ++ [f'], acc.2.1 ++ [o], acc.2.2 + 1)
        | none => pure (acc.1 ++ [f'], acc.2.1, acc.2.2)
      else
        pure (acc.1 ++ [f'], acc.2.1, acc.2.2))
    ?_ ([], [], oid) n [] (by simp)
  · rw [List.nil_append] at hrel
    exact hrel
  · intro b pre a m ha hb
    obtain ⟨hbf, hbfid, hbo⟩ := hb
    simp only [runR_bind, runR_next, runR_pure, pickIndex, randRange]
    split
    · simp only [runR_bind, runR_next, runR_pure]
      split
      · rename_i hgt
        simp only [runR_bind, runR_next, runR_pure]
        split
        · simp only [runR_bind, runR_next, runR_pure]
          refine ⟨append_planned_inv _ _ _ hbf (hpbc a ha),
            append_planned_fid _ _ _ _ hbfid, ?_⟩
          intro o ho
          rcases List.mem_append.mp ho with h | h
          · exact hbo o h
          · rcases List.mem_singleton.mp h with rfl
            show (0 : ℚ) ≤ _ - a.inventory
            linarith [hgt]
        · simp only [runR_pure]
          exact ⟨append_planned_inv _ _ _ hbf (hpbc a ha),
            append_planned_fid _ _ _ _ hbfid, hbo⟩
      · simp only [runR_pure]
        exact ⟨append_planned_inv _ _ _ hbf (hpbc a ha),
          append_planned_fid _ _ _ _ hbfid, hbo⟩
    · simp only [runR_bind, runR_next, runR_pure]
      split
      · rename_i hgt
        simp only [runR_bind, runR_next, runR_pure]
        split
        · simp only [runR_bind, runR_next, runR_pure]
          refine ⟨append_planned_inv _ _ _ hbf (hpbc a ha),
            append_planned_fid _ _ _ _ hbfid, ?_⟩
          intro o ho
          rcases List.mem_append.mp ho with h | h
          · exact hbo o h
          · rcases List.mem_singleton.mp h with rfl
            show (0 : ℚ) ≤ _ - a.inventory
            linarith [hgt]
        · simp only [runR_pure]
          exact ⟨append_planned_inv _ _ _ hbf (hpbc a ha),
            append_planned_fid _ _ _ _ hbfid, hbo⟩
      · simp only [runR_pure]
        exact ⟨append_planned_inv _ _ _ hbf (hpbc a ha),
          append_planned_fid _ _ _ _ hbfid, hbo⟩

/-- Autonomous production preserves the firm invariants and ids: the
produced quantity is non-negative under valid draws. -/
theorem produceStep_inv (t : ℤ) (firms : List Firm) (g : ℕ → ℚ) (n : ℕ)
    (hg : Range01 g) (hfs : ∀ f ∈ firms, InvFirm f) :
    (∀ f ∈ (runR (produceStep t firms) g n).1, InvFirm f) ∧
    (runR (produceStep t firms) g n).1.map Firm.fid = firms.map Firm.fid := by
  have hrel := runR_foldlM_rel g
    (fun (acc : List Firm) (pre : List Firm) =>
      (∀ f ∈ acc, InvFirm f) ∧ acc.map Firm.fid = pre.map Firm.fid)
    firms
    (fun acc f => do
      let u ← nextR
      let produced := jsOr f.capacity 10 * (0.4 + u * 0.6)
      pure (acc ++ [{ f with inventory := f.inventory + produced,
                             history := f.history ++ [(t, produced)] }]))
    ?_ [] n [] (by simp)
  · rw [List.nil_append] at hrel
    exact hrel
  · intro b pre a m ha hb
    obtain ⟨hbf, hbfid⟩ := hb
    simp only [runR_bind, runR_next, runR_pure]
    have hinv := hfs a ha
    have hprod : 0 ≤ jsOr a.capacity 10 * (0.4 + g m * 0.6) := by
      have hcap : 0 ≤ jsOr a.capacity 10 := by
        unfold jsOr
        split
        · norm_num
        · exact hinv.2
      have := (hg m).1
      nlinarith
    refine ⟨?_, ?_⟩
    · intro f hf
      rcases List.mem_append.mp hf with h | h
      · exact hbf f h
      · rcases List.mem_singleton.mp h with rfl
        exact ⟨add_nonneg hinv.1 hprod, hinv.2⟩
    · simp [hbfid]

/-- One due-order resolution preserves the order-loop invariant: every
inventory transfer is guarded by a covering-inventory test on the
supplying firm, additions receive the (non-negative) transferred amount,
escalation children carry `max 0 _` amounts, and firm ids are never
changed. -/
theorem processOneOrder_inv (t : ℤ) (ctx : OrdCtx) (ord : Order) (g : ℕ → ℚ) (m : ℕ)
    (hctx : OrdInv ctx) (hamt : 0 ≤ ord.amount) :
    OrdInv (runR (processOneOrder t ctx ord) g m).1 := by
  obtain ⟨hpbc, hpfp, hpmp, hord, hnd1, hnd2, hnd3⟩ := hctx
  simp only [processOneOrder, pickIndex, randRange]
  split
  · -- PBC->PFP
    split
    · -- both endpoints found
      rename_i pfpF pbcF heqPfp heqPbc
      split
      · -- PFP inventory covers the amount: transfer
        rename_i hcov
        simp only [runR_pure]
        refine ⟨?_, ?_, hpmp, ?_, ?_, ?_, hnd3⟩
        · exact invFirm_updateFirm_of _ _ _ hpbc
            (fun f hf => ⟨add_nonneg hf.1 hamt, hf.2⟩)
        · exact invFirm_updateFirm_found _ _ _ hnd2 hpfp pfpF heqPfp
            ⟨sub_nonneg.mpr hcov, (hpfp pfpF (List.mem_of_find?_eq_some heqPfp)).2⟩
        · exact updateOrder_amounts _ _ _ hord (fun o => rfl)
        · rw [updateFirm_map_fid ctx.pbc ord.src
            (fun f => { f with inventory := f.inventory + ord.amount }) (fun f => rfl)]
          exact hnd1
        · rw [updateFirm_map_fid ctx.pfp ord.dst
            (fun f => { f with inventory := f.inventory - ord.amount }) (fun f => rfl)]
          exact hnd2
      · -- shortfall: escalate
        simp only [runR_bind, runR_next, runR_pure]
        split
        · -- a PMP target exists: push one child order
          simp only [runR_bind, runR_next, runR_pure]
          refine ⟨hpbc, hpfp, hpmp, ?_, hnd1, hnd2, hnd3⟩
          intro o ho
          rcases List.mem_append.mp ho with h | h
          · exact hord o h
          · rcases List.mem_singleton.mp h with rfl
            exact le_max_left 0 _
        · simp only [runR_pure]
          exact ⟨hpbc, hpfp, hpmp, hord, hnd1, hnd2, hnd3⟩
    · -- a missing endpoint: mark filled
      simp only [runR_pure]
      refine ⟨hpbc, hpfp, hpmp, ?_, hnd1, hnd2, hnd3⟩
      exact updateOrder_amounts _ _ _ hord (fun o => rfl)
  · -- PFP->PMP
    split
    · rename_i pmpF pfpF0 heqPmp heqPfp0
      split
      · -- PMP inventory covers the amount: transfer, then maybe cascade
        rename_i hcov
        have hpmp1 : ∀ f ∈ updateFirm ctx.pmp ord.dst
            (fun f => { f with inventory := f.inventory - ord.amount }), InvFirm f :=
          invFirm_updateFirm_found _ _ _ hnd3 hpmp pmpF heqPmp
            ⟨sub_nonneg.mpr hcov, (hpmp pmpF (List.mem_of_find?_eq_some heqPmp)).2⟩
        have hpfp1 : ∀ f ∈ updateFirm ctx.pfp ord.src
            (fun f => { f with inventory := f.inventory + ord.amount }), InvFirm f :=
          invFirm_updateFirm_of _ _ _ hpfp (fun f hf => ⟨add_nonneg hf.1 hamt, hf.2⟩)
        have hord1 : ∀ o ∈ updateOrder ctx.orders ord.oid
            (fun o => { o with filled := true }), 0 ≤ o.amount :=
          updateOrder_amounts _ _ _ hord (fun o => rfl)
        have hnd2' : ((updateFirm ctx.pfp ord.src
            (fun f => { f with inventory := f.inventory + ord.amount })).map Firm.fid).Nodup := by
          rw [updateFirm_map_fid ctx.pfp ord.src
            (fun f => { f with inventory := f.inventory + ord.amount }) (fun f => rfl)]
          exact hnd2
        have hnd3' : ((updateFirm ctx.pmp ord.dst
            (fun f => { f with inventory := f.inventory - ord.amount })).map Firm.fid).Nodup := by
          rw [updateFirm_map_fid ctx.pmp ord.dst
            (fun f => { f with inventory := f.inventory - ord.amount }) (fun f => rfl)]
          exact hnd3
        split
        · -- the order carries an originating back-reference
          split
          · -- both the parent order and the PFP firm are found
            rename_i origOrd pfpNow heqOrig heqPfpNow
            have horigAmt : 0 ≤ origOrd.amount :=
              hord1 origOrd (List.mem_of_find?_eq_some heqOrig)
            split
            · -- the original PBC firm is found
              split
              · -- the PFP inventory now covers the parent: cascade fill
                rename_i hcov2
                simp only [runR_pure]
                refine ⟨?_, ?_, hpmp1, ?_, ?_, ?_, hnd3'⟩
                · exact invFirm_updateFirm_of _ _ _ hpbc
                    (fun f hf => ⟨add_nonneg hf.1 horigAmt, hf.2⟩)
                · exact invFirm_updateFirm_found _ _ _ hnd2' hpfp1 pfpNow heqPfpNow
                    ⟨sub_nonneg.mpr hcov2,
                      (hpfp1 pfpNow (List.mem_of_find?_eq_some heqPfpNow)).2⟩
                · exact updateOrder_amounts _ _ _ hord1 (fun o => rfl)
                · rw [updateFirm_map_fid ctx.pbc origOrd.src
                    (fun f => { f with inventory := f.inventory + origOrd.amount })
                    (fun f => rfl)]
                  exact hnd1
                · rw [updateFirm_map_fid
                    (updateFirm ctx.pfp ord.src
                      (fun f => { f with inventory := f.inventory + ord.amount }))
                    ord.src
                    (fun f => { f with inventory := f.inventory - origOrd.amount })
                    (fun f => rfl)]
                  exact hnd2'
              · simp only [runR_pure]
                exact ⟨hpbc, hpfp1, hpmp1, hord1, hnd1, hnd2', hnd3'⟩
            · simp only [runR_pure]
              exact ⟨hpbc, hpfp1, hpmp1, hord1, hnd1, hnd2', hnd3'⟩
          · simp only [runR_pure]
            exact ⟨hpbc, hpfp1, hpmp1, hord1, hnd1, hnd2', hnd3'⟩
        · simp only [runR_pure]
          exact ⟨hpbc, hpfp1, hpmp1, hord1, hnd1, hnd2', hnd3'⟩
      · simp only [runR_pure]
        exact ⟨hpbc, hpfp, hpmp, hord, hnd1, hnd2, hnd3⟩
    · simp only [runR_pure]
      refine ⟨hpbc, hpfp, hpmp, ?_, hnd1, hnd2, hnd3⟩
      exact updateOrder_amounts _ _ _ hord (fun o => rfl)

/-- The whole due-order loop preserves the order-loop invariant. -/
theorem processOrdersStep_inv (t : ℤ) (ctx : OrdCtx) (g : ℕ → ℚ) (n : ℕ)
    (hctx : OrdInv ctx) : OrdInv (runR (processOrdersStep t ctx) g n).1 := by
  unfold processOrdersStep
  refine runR_foldlM_inv g OrdInv _ (processOneOrder t) ?_ ctx n hctx
  intro b ord m hmem hb
  refine processOneOrder_inv t b ord g m hb ?_
  have hmem' : ord ∈ ctx.orders := List.mem_of_mem_filter hmem
  exact hctx.2.2.2.1 ord hmem'

/-- A pure left fold preserves any invariant its body preserves. -/
theorem foldl_inv {α β : Type} (P : β → Prop) (f : β → α → β) :
    ∀ (l : List α), (∀ b a, a ∈ l → P b → P (f b a)) →
      ∀ (b : β), P b → P (l.foldl f b) := by
  intro l
  induction l with
  | nil => intro _ b hb; exact hb
  | cons a l ih =>
    intro hf b hb
    exact ih (fun b a ha hb => hf b a (List.mem_cons_of_mem _ ha) hb) (f b a)
      (hf b a (List.mem_cons_self _ _) hb)

/-- Serving one Final firm keeps the invariant: the served amount is
non-negative, never exceeds the pre-serve inventory, and the id is
untouched. -/
theorem serveFirm_inv (t : ℤ) (f : Firm) (hf : InvFirm f) :
    InvFirm (serveFirm t f).1 ∧ 0 ≤ (serveFirm t f).2 ∧ (serveFirm t f).1.fid = f.fid := by
  obtain ⟨hi, hc⟩ := hf
  have h1 : max 0 (min f.planned (min f.inventory (jsOr f.capacity 9999))) ≤ f.inventory :=
    max_le hi (le_trans (min_le_right _ _) (min_le_left _ _))
  refine ⟨⟨?_, ?_⟩, ?_, ?_⟩
  · show (0 : ℚ) ≤ f.inventory - max 0 (min f.planned (min f.inventory (jsOr f.capacity 9999)))
    linarith
  · exact hc
  · exact le_max_left 0 _
  · rfl

/-- The PBC serve loop keeps the invariant on every firm, keeps the ids,
and accumulates a non-negative total served quantity. -/
theorem pbcServeStep_inv (t : ℤ) (fs : List Firm) (hfs : ∀ f ∈ fs, InvFirm f) :
    (∀ f ∈ (pbcServeStep t fs).1, InvFirm f) ∧
    (pbcServeStep t fs).1.map Firm.fid = fs.map Firm.fid ∧
    0 ≤ (pbcServeStep t fs).2 := by
  rw [pbcServeStep_eq]
  refine ⟨?_, ?_, ?_⟩
  · intro f hf
    obtain ⟨a, ha, rfl⟩ := List.mem_map.mp hf
    exact (serveFirm_inv t a (hfs a ha)).1
  · rw [List.map_map]
    apply List.map_congr_left
    intro a ha
    exact (serveFirm_inv t a (hfs a ha)).2.2
  · apply List.sum_nonneg
    intro q hq
    obtain ⟨a, ha, rfl⟩ := List.mem_map.mp hq
    exact (serveFirm_inv t a (hfs a ha)).2.1

/-- One adoption keeps the loop invariant: the multipliers touch only
`marginalCost` and `A`, never inventory, capacity or id. -/
theorem adoptOne_inv (t : ℤ) (ctx : AdoptCtx) (idx : ℕ) (hctx : AdoptInv ctx) :
    AdoptInv (adoptOne t ctx idx) := by
  obtain ⟨h1, h2, h3, n1, n2, n3⟩ := hctx
  have hupd : ∀ (fs : List Firm) (i : ℕ) (innov : Innov), (∀ f ∈ fs, InvFirm f) →
      ∀ f ∈ updateFirm fs i (adoptFirmUpdate innov), InvFirm f :=
    fun fs i innov hfs =>
      invFirm_updateFirm_of fs i (adoptFirmUpdate innov) hfs (fun f hf => ⟨hf.1, hf.2⟩)
  have hfid : ∀ (fs : List Firm) (i : ℕ) (innov : Innov),
      (updateFirm fs i (adoptFirmUpdate innov)).map Firm.fid = fs.map Firm.fid :=
    fun fs i innov => updateFirm_map_fid fs i (adoptFirmUpdate innov) (fun f => rfl)
  unfold adoptOne
  split
  · exact ⟨h1, h2, h3, n1, n2, n3⟩
  · rename_i innov heq
    cases hl : innov.level with
    | PBC =>
      dsimp only
      split
      · exact ⟨h1, h2, h3, n1, n2, n3⟩
      · simp only [reduceIte]
        refine ⟨?_, h2, h3, ?_, n2, n3⟩
        · exact hupd _ _ _ h1
        · rw [hfid]
          exact n1
    | PFP =>
      dsimp only
      split
      · exact ⟨h1, h2, h3, n1, n2, n3⟩
      · simp only [reduceIte]
        refine ⟨h1, ?_, h3, n1, ?_, n3⟩
        · exact hupd _ _ _ h2
        · rw [hfid]
          exact n2
    | PMP =>
      dsimp only
      split
      · exact ⟨h1, h2, h3, n1, n2, n3⟩
      · simp only [reduceIte]
        refine ⟨h1, h2, ?_, n1, n2, ?_⟩
        · exact hupd _ _ _ h3
        · rw [hfid]
          exact n3

/-- The whole adoption loop keeps the loop invariant. -/
theorem adoptStep_inv (t : ℤ) (ctx : AdoptCtx) (hctx : AdoptInv ctx) :
    AdoptInv (adoptStep t ctx) := by
  unfold adoptStep
  exact foldl_inv AdoptInv (adoptOne t) _
    (fun b a _ hb => adoptOne_inv t b a hb) ctx hctx

/-- The tail of the tick (production, order resolution, serving, price
adjustment, innovation handling, metrics) keeps the state invariant,
keeps the price at or above the floor, and records non-negative served
and demand quantities. -/
theorem simTickRest_inv (E : Env) (s : SimState) (t : ℤ) (price Qagg : ℚ)
    (consumers : List Consumer) (pbc : List Firm) (orders : List Order)
    (nextOid : ℕ) (g : ℕ → ℚ) (n : ℕ) (hg : Range01 g) (hQ : 0 ≤ Qagg)
    (hpbc : ∀ f ∈ pbc, InvFirm f) (hpbcnd : (pbc.map Firm.fid).Nodup)
    (hpfp : ∀ f ∈ s.firmsPFP, InvFirm f) (hpfpnd : (s.firmsPFP.map Firm.fid).Nodup)
    (hpmp : ∀ f ∈ s.firmsPMP, InvFirm f) (hpmpnd : (s.firmsPMP.map Firm.fid).Nodup)
    (hord : ∀ o ∈ orders, 0 ≤ o.amount)
    (hpr : E.priceManual = true → pMin ≤ price) :
    InvState (runR (simTickRest E s t price Qagg consumers pbc orders nextOid) g n).1.1 ∧
    pMin ≤ (runR (simTickRest E s t price Qagg consumers pbc orders nextOid) g n).1.1.price ∧
    0 ≤ (runR (simTickRest E s t price Qagg consumers pbc orders nextOid) g n).1.2.qServed ∧
    0 ≤ (runR (simTickRest E s t price Qagg consumers pbc orders nextOid) g n).1.2.qDemand := by
  simp only [simTickRest, runR_bind, runR_pure]
  obtain ⟨hpmp1, hpmpf⟩ := produceStep_inv t s.firmsPMP g n hg hpmp
  generalize hP1 : runR (produceStep t s.firmsPMP) g n = P1 at *
  obtain ⟨hpfp1, hpfpf⟩ := produceStep_inv t s.firmsPFP g P1.2 hg hpfp
  generalize hP2 : runR (produceStep t s.firmsPFP) g P1.2 = P2 at *
  obtain ⟨hc1, hc2, hc3, hc4, hn1, hn2, hn3⟩ :=
    processOrdersStep_inv t ⟨pbc, P2.1, P1.1, orders, nextOid, s.logs⟩ g P2.2
      ⟨hpbc, hpfp1, hpmp1, hord, hpbcnd, by rw [hpfpf]; exact hpfpnd,
        by rw [hpmpf]; exact hpmpnd⟩
  generalize hC : runR (processOrdersStep t ⟨pbc, P2.1, P1.1, orders, nextOid, s.logs⟩)
    g P2.2 = C at *
  obtain ⟨hs1, hsf, hsq⟩ := pbcServeStep_inv t C.1.pbc hc1
  generalize hS : pbcServeStep t C.1.pbc = S at *
  have hA : ∀ (inns : List Innov),
      AdoptInv (adoptStep t ⟨S.1, C.1.pfp, C.1.pmp, inns, C.1.logs⟩) :=
    fun inns => adoptStep_inv t ⟨S.1, C.1.pfp, C.1.pmp, inns, C.1.logs⟩
      ⟨hs1, hc2, hc3, by rw [hsf]; exact hn1, hn2, hn3⟩
  refine ⟨⟨(hA _).1, (hA _).2.1, (hA _).2.2.1, hc4,
    (hA _).2.2.2.1, (hA _).2.2.2.2.1, (hA _).2.2.2.2.2⟩, ?_, ?_, ?_⟩
  · show pMin ≤ if E.priceManual = true then price else priceAdjustStep Qagg S.2 price
    split
    · rename_i hm
      exact hpr hm
    · simp only [priceAdjustStep]
      exact le_max_left _ _
  · exact toFixedQ_nonneg 3 S.2 hsq
  · exact toFixedQ_nonneg 3 Qagg hQ

/-- C5: after every tick of the planner variant the state invariant holds
(non-negative inventories and capacities, non-negative order amounts,
distinct firm ids per tier), the internal price sits at or above the
configured floor `pMin = 0.01`, and the recorded served quantity and
aggregate demand of the tick are non-negative — for every draw stream
with values in `[0, 1)` and every starting state satisfying the
invariant.  Transfers in the order loop are guarded by a
covering-inventory test, production and consumption are bounded as
claimed, and consumer demand is floored at 0. -/
theorem simC5_invariants (E : Env) (s : SimState) (g : ℕ → ℚ) (n : ℕ)
    (hg : Range01 g) (hs : InvState s) :
    InvState (runR (simTick E s) g n).1.1 ∧
    pMin ≤ (runR (simTick E s) g n).1.1.price ∧
    0 ≤ (runR (simTick E s) g n).1.2.qServed ∧
    0 ≤ (runR (simTick E s) g n).1.2.qDemand := by
  obtain ⟨h1, h2, h3, h4, n1, n2, n3⟩ := hs
  simp only [simTick, runR_bind, runR_pure]
  have hQ := consumersStep_nonneg E (s.t + 1) s.price
    (if E.priceManual = true then max pMin E.manualPrice else s.price) s.consumers g n hg
  generalize hCR : runR (consumersStep E (s.t + 1) s.price
    (if E.priceManual = true then max pMin E.manualPrice else s.price) s.consumers) g n
    = CR at *
  obtain ⟨hp1, hpf, hpo⟩ := pbcPlanningStep_inv E (s.t + 1)
    (if E.priceManual = true then max pMin E.manualPrice else s.price) CR.1.2
    s.firmsPBC s.firmsPFP s.nextOid g CR.2 h1
  generalize hPR : runR (pbcPlanningStep E (s.t + 1)
    (if E.priceManual = true then max pMin E.manualPrice else s.price) CR.1.2
    s.firmsPBC s.firmsPFP s.nextOid) g CR.2 = PR at *
  refine simTickRest_inv E s (s.t + 1)
    (if E.priceManual = true then max pMin E.manualPrice else s.price) CR.1.2 CR.1.1
    PR.1.1 (s.orders ++ PR.1.2.1) PR.1.2.2 g PR.2 hg hQ hp1 ?_ h2 n2 h3 n3 ?_ ?_
  · rw [hpf]
    exact n1
  · intro o ho
    rcases List.mem_append.mp ho with h | h
    · exact h4 o h
    · exact hpo o h
  · intro hm
    rw [if_pos hm]
    exact le_max_left _ _

/-- Witness for C5: the shortage-cascade scenario state satisfies the
invariant, the all-zeros stream is a valid draw stream, and one tick from
it keeps the invariant, the price floor and the non-negative recorded
quantities. -/
theorem simC5_invariants_witness :
    Range01 gZero ∧ InvState stateCascade ∧
    (InvState (runR (simTick envCascade stateCascade) gZero 0).1.1 ∧
      pMin ≤ (runR (simTick envCascade stateCascade) gZero 0).1.1.price ∧
      0 ≤ (runR (simTick envCascade stateCascade) gZero 0).1.2.qServed ∧
      0 ≤ (runR (simTick envCascade stateCascade) gZero 0).1.2.qDemand) := by
  have hR : Range01 gZero := range01_gZero
  exact ⟨hR, by decide,
    simC5_invariants envCascade stateCascade gZero 0 hR (by decide)⟩
